import Mathlib

/-!
# linta: permission derivation and comparison

A shallow embedding of `internal/linta/linter.go`, `internal/linta/walker.go`, the
validation and lookup of `internal/linta/config.go`, and the end of the `run` command in
`internal/linta/commands.go`.

Modelling conventions:

* Go's builtin `map[string]V` is an association list with pairwise distinct keys
  (`AList`).  `m[k]` is `lookup`, `m[k] = v` is `insert`, `len(m)` is
  `entries.length`, and `for k, v := range m` visits `entries` in list order (Go
  leaves the order unspecified; the list order is one admissible order).
* A Go pointer that may be nil is an `Option`.
* `jobPermissionScope` is a Go `int`; only comparisons are performed on it, so it is
  an `Int` here.
* Methods that mutate their receiver return the updated value.
* `strings.Split` is modelled on the characters of the string, for a separator of one
  character.
* The recursion of `walk` is bounded by a depth parameter; a result `none` means that the
  call has not returned within that depth.
-/

namespace Linta

/-- Go's builtin `map[string]V`. -/
abbrev GoMap (V : Type) := AList (fun _ : String => V)

/-! ## Types of the workflow parser (`github.com/rhysd/actionlint`) used by the code -/

/-- Source position `actionlint.Pos`. -/
structure Pos where
  Line : Int
  Col : Int
deriving DecidableEq, Repr

/-- String node `actionlint.String`: the text and where it stands in the file. -/
structure AString where
  Value : String
  Pos : Option Pos
deriving DecidableEq, Repr

/-- One declared permission `actionlint.PermissionScope`. -/
structure PermissionScope where
  Name : AString
  Value : AString
deriving DecidableEq, Repr

/-- Permissions block `actionlint.Permissions`; `Scopes` is a map that may be nil. -/
structure Permissions where
  Scopes : Option (GoMap PermissionScope)

/-- What a step executes (`actionlint.Exec`): a shell command or an action. -/
inductive Exec where
  | ExecRun : Exec
  | ExecAction (Uses : AString) : Exec
deriving DecidableEq, Repr

/-- Step `actionlint.Step`. -/
structure Step where
  Exec : Option Exec
deriving DecidableEq, Repr

/-- Reusable workflow call `actionlint.WorkflowCall`. -/
structure WorkflowCall where
  Uses : Option AString
deriving DecidableEq, Repr

/-- Job `actionlint.Job`. -/
structure Job where
  ID : AString
  Permissions : Option Permissions
  Steps : List Step
  WorkflowCall : Option WorkflowCall

/-! ## config.go -/

def noneScope : String := "none"
def readScope : String := "read"
def writeScope : String := "write"

/-- Type `PermissionConfig map[string]string`. -/
abbrev PermissionConfig := GoMap String

/-- Struct `Config`; a repository may be mapped to a nil permission config. -/
structure Config where
  Repositories : GoMap (Option PermissionConfig)

/-- Method `getPermissionConfig`: `c.Repositories[r]`, nil when `r` is not a key. -/
def Config.getPermissionConfig (c : Config) (r : String) : Option PermissionConfig :=
  match c.Repositories.lookup r with
  | some pc => pc
  | none => none

/-! ## linter.go -/

structure LintErr where
  Message : String
  Filepath : String
  Line : Int
  Column : Int
deriving DecidableEq, Repr

def newLintErr (message path : String) (pos : Option Pos) : LintErr :=
  match pos with
  | some p => { Message := message, Filepath := path, Line := p.Line, Column := p.Col }
  | none => { Message := message, Filepath := path, Line := 0, Column := 0 }

abbrev jobPermissionScope := Int

def JobPermissionScopeNone : jobPermissionScope := 0
def JobPermissionScopeRead : jobPermissionScope := 1
def JobPermissionScopeWrite : jobPermissionScope := 2

def newJobPermissionsFromString (s : String) : jobPermissionScope :=
  if s = noneScope then JobPermissionScopeNone
  else if s = readScope then JobPermissionScopeRead
  else if s = writeScope then JobPermissionScopeWrite
  else JobPermissionScopeNone

def jobPermissionScope.String (s : jobPermissionScope) : String :=
  if s = JobPermissionScopeNone then noneScope
  else if s = JobPermissionScopeRead then readScope
  else if s = JobPermissionScopeWrite then writeScope
  else noneScope

def jobPermissionScope.lowerThan (s other : jobPermissionScope) : Bool :=
  decide (s < other)

structure jobPermission where
  scope : jobPermissionScope
  repository : String
  pos : Option Pos
deriving DecidableEq, Repr

/-- Method `jobPermission.String`, the `%s` rendering of an entry. -/
def jobPermission.String (p : jobPermission) : String :=
  if p.repository ≠ "" then
    jobPermissionScope.String p.scope ++ " (required by " ++ p.repository ++ ")"
  else
    jobPermissionScope.String p.scope

abbrev jobPermissions := GoMap jobPermission

def newJobPermissions : jobPermissions := ∅

def jobPermissions.isEmpty (p : jobPermissions) : Bool :=
  p.entries.length == 0

def jobPermissions.setDefault (p : jobPermissions) : jobPermissions :=
  AList.insert "contents" ⟨JobPermissionScopeRead, "", none⟩ p

/-- The zero value of `jobPermission`, which `p[key]` yields for a missing key. -/
def jobPermission.zero : jobPermission := ⟨0, "", none⟩

def jobPermissions.add (p : jobPermissions) (key repository : String)
    (scope : jobPermissionScope) (pos : Option Pos) : jobPermissions :=
  let found := AList.lookup key p
  let curr := found.getD jobPermission.zero
  let p1 : jobPermissions :=
    if found.isNone then AList.insert key ⟨scope, repository, pos⟩ p else p
  if jobPermissionScope.lowerThan curr.scope scope then
    AList.insert key ⟨scope, repository, pos⟩ p1
  else p1

def loadJobPermissions (scopes : GoMap PermissionScope) : jobPermissions :=
  scopes.entries.foldl
    (fun p kv =>
      AList.insert kv.2.Name.Value
        ⟨newJobPermissionsFromString kv.2.Value.Value, "", kv.2.Value.Pos⟩ p)
    (∅ : jobPermissions)

def jobPermissions.excessivePermissions (p q : jobPermissions) : jobPermissions :=
  let r1 : jobPermissions :=
    p.entries.foldl
      (fun r kv =>
        match AList.lookup kv.1 q with
        | none => jobPermissions.add r kv.1 kv.2.repository kv.2.scope kv.2.pos
        | some _ => r)
      (∅ : jobPermissions)
  q.entries.foldl
    (fun r kv =>
      match AList.lookup kv.1 p with
      | none => r
      | some pv =>
        if jobPermissionScope.lowerThan kv.2.scope pv.scope then
          jobPermissions.add r kv.1 pv.repository pv.scope pv.pos
        else r)
    r1

def jobPermissions.insufficientPermissions (p q : jobPermissions) : jobPermissions :=
  let r1 : jobPermissions :=
    q.entries.foldl
      (fun r kv =>
        match AList.lookup kv.1 p with
        | none => jobPermissions.add r kv.1 kv.2.repository kv.2.scope kv.2.pos
        | some _ => r)
      (∅ : jobPermissions)
  p.entries.foldl
    (fun r kv =>
      match AList.lookup kv.1 q with
      | none => r
      | some qv =>
        if jobPermissionScope.lowerThan kv.2.scope qv.scope then
          jobPermissions.add r kv.1 qv.repository qv.scope qv.pos
        else r)
    r1

structure stepAction where
  value : String
  pos : Option Pos
deriving DecidableEq, Repr

/-- Pieces of a character list between the occurrences of `sep`; there is always at least
one piece. -/
def splitChars (sep : Char) : List Char → List (List Char)
  | [] => [[]]
  | c :: cs =>
    if c = sep then [] :: splitChars sep cs
    else
      match splitChars sep cs with
      | [] => [[c]]
      | p :: ps => (c :: p) :: ps

/-- Go's `strings.Split(s, sep)` for a separator `sep` of one character. -/
def stringsSplit (s : String) (sep : Char) : List String :=
  (splitChars sep s.toList).map String.mk

/-- Method `actionName`: `strings.Split(a.value, "@")[0]`. -/
def stepAction.actionName (a : stepAction) : String :=
  (stringsSplit a.value '@').headD ""

structure checker where
  config : Config
  errs : List LintErr

def newChecker (config : Config) : checker :=
  { config := config, errs := [] }

def checker.collectUsedActions (_c : checker) (job : Job) : List stepAction :=
  job.Steps.foldl
    (fun actions step =>
      match step.Exec with
      | some (Exec.ExecAction u) => actions ++ [{ value := u.Value, pos := u.Pos }]
      | _ => actions)
    []

def checker.deriveJobPermissions (c : checker) (stepActions : List stepAction) :
    jobPermissions :=
  stepActions.foldl
    (fun derived action =>
      match c.config.getPermissionConfig action.actionName with
      | some pc =>
        pc.entries.foldl
          (fun d kv =>
            jobPermissions.add d kv.1 action.actionName
              (newJobPermissionsFromString kv.2) action.pos)
          derived
      | none => derived)
    newJobPermissions

/-- The `fmt.Sprintf("job %s has excessive permission: %s:%s", id, k, p)` message. -/
def excessiveMessage (id k : String) (p : jobPermission) : String :=
  "job " ++ id ++ " has excessive permission: " ++ k ++ ":" ++ p.String

/-- The `fmt.Sprintf("job %s has insufficient permission: %s:%s", id, k, p)` message. -/
def insufficientMessage (id k : String) (p : jobPermission) : String :=
  "job " ++ id ++ " has insufficient permission: " ++ k ++ ":" ++ p.String

/-- The loop `for k, p := range m { errs = append(errs, newLintErr(msg k p, path, p.pos)) }`
of `onJob`, for either of its two message formats. -/
def appendFindings (msg : String → jobPermission → String) (path : String)
    (m : jobPermissions) (errs : List LintErr) : List LintErr :=
  m.entries.foldl (fun es kv => es ++ [newLintErr (msg kv.1 kv.2) path kv.2.pos]) errs

/-- Method `checker.onJob`; the Go function always returns a nil error, the result here
is the checker with the findings appended. -/
def checker.onJob (c : checker) (path : String) (job : Job) : checker :=
  let currentPermissions : jobPermissions :=
    match job.Permissions with
    | some perms =>
      match perms.Scopes with
      | some scopes => loadJobPermissions scopes
      | none => newJobPermissions
    | none => newJobPermissions
  let actions := c.collectUsedActions job
  let derivedPermissions := c.deriveJobPermissions actions
  let excessivePermissions := currentPermissions.excessivePermissions derivedPermissions
  let errs1 :=
    if excessivePermissions.entries.length > 0 then
      appendFindings (excessiveMessage job.ID.Value) path excessivePermissions c.errs
    else c.errs
  let currentPermissions2 :=
    if currentPermissions.isEmpty then currentPermissions.setDefault else currentPermissions
  let insufficientPermissions :=
    currentPermissions2.insufficientPermissions derivedPermissions
  let errs2 :=
    if insufficientPermissions.entries.length > 0 then
      appendFindings (insufficientMessage job.ID.Value) path insufficientPermissions errs1
    else errs1
  { c with errs := errs2 }

/-! ## config.go: validation -/

/-- Outcome of a Go call that either returns a value or stops in a run-time panic. -/
inductive GoResult (α : Type) where
  | ret (a : α) : GoResult α
  | panic : GoResult α
deriving DecidableEq, Repr

/-- The set `allPermissionScopes` (a `map[string]struct{}`). -/
def allPermissionScopes : GoMap Unit :=
  ["actions", "checks", "contents", "deployments", "id-token", "issues", "discussions",
    "packages", "pages", "pull-requests", "repository-projects", "security-events",
    "statuses"].foldr (fun k m => AList.insert k () m) ∅

/-- The loop of `PermissionConfig.validate` over the pairs still to visit; `none` is a nil
error. -/
def PermissionConfig.validateEntries :
    List (Sigma (fun _ : String => String)) → Option String
  | [] => none
  | ⟨k, v⟩ :: rest =>
    if (AList.lookup k allPermissionScopes).isNone then
      some ("invalid permission scope: " ++ k)
    else if v = noneScope then PermissionConfig.validateEntries rest
    else if v = readScope then PermissionConfig.validateEntries rest
    else if v = writeScope then PermissionConfig.validateEntries rest
    else some ("invalid permission value: " ++ v)

/-- Method `PermissionConfig.validate`. -/
def PermissionConfig.validate (c : PermissionConfig) : Option String :=
  PermissionConfig.validateEntries c.entries

/-- The loop of `Config.validate` over the repositories still to visit.  `pc.validate()`
has a value receiver, so the call dereferences `pc` and panics when `pc` is nil. -/
def Config.validateEntries :
    List (Sigma (fun _ : String => Option PermissionConfig)) → GoResult (Option String)
  | [] => GoResult.ret none
  | ⟨r, pc⟩ :: rest =>
    if (stringsSplit r '/').length < 2 then
      GoResult.ret (some ("invalid repository name: " ++ r))
    else
      match pc with
      | none => GoResult.panic
      | some pc =>
        match PermissionConfig.validate pc with
        | some err => GoResult.ret (some err)
        | none => Config.validateEntries rest

/-- Method `Config.validate`. -/
def Config.validate (c : Config) : GoResult (Option String) :=
  Config.validateEntries c.Repositories.entries

/-! ## commands.go: how `run` ends -/

/-- How the action of a command ends: it calls `os.Exit(code)`, or it returns an error
value (`none` for nil). -/
inductive RunEnd where
  | exit (code : Nat) : RunEnd
  | returned (err : Option String) : RunEnd
deriving DecidableEq, Repr

/-- The part of `runAction` after the diagnostics of all workflows are collected in `errs`
(commands.go, from `if len(errs) > 0`); `encodeErr` is what
`json.NewEncoder(os.Stdout).Encode(errs)` returns. -/
def runAction (format : String) (errs : List LintErr) (encodeErr : Option String) : RunEnd :=
  if errs.length > 0 then
    if format = "text" then RunEnd.exit 1
    else if format = "json" then
      match encodeErr with
      | some err => RunEnd.returned (some err)
      | none => RunEnd.returned none
    else RunEnd.returned (some ("unknown format: " ++ format))
  else RunEnd.returned none

/-- Exit status of `main`: `log.Fatal` ends the process with status 1 when the action
returned an error, and the process ends with status 0 when it returned nil. -/
def mainExitCode : RunEnd → Nat
  | RunEnd.exit code => code
  | RunEnd.returned (some _) => 1
  | RunEnd.returned none => 0

/-! ## parse.go and walker.go -/

/-- Workflow `actionlint.Workflow`; `Jobs` is a map that may be nil. -/
structure Workflow where
  Jobs : Option (GoMap Job)

/-- The files the walker can see.  `openParse path` is `os.Open(path)` followed by
`parse`: the outer error is that of `os.Open`, the inner one the parse error, and a parsed
workflow may be nil.  `stat path` tells whether `os.Stat(path)` succeeds. -/
structure FileSystem where
  openParse : String → Except String (Except String (Option Workflow))
  stat : String → Bool

/-- Interface `workflowProcessor` over a processor state `σ`: `onJob` gives the new state
and the error it returns (`none` for nil). -/
structure workflowProcessor (σ : Type) where
  onJob : σ → String → Job → σ × Option String

/-- The checker as a processor; its `onJob` always returns nil. -/
def checkerProcessor : workflowProcessor checker :=
  ⟨fun c path job => (c.onJob path job, none)⟩

/-- State of a walk: the walker's `workflowCallRecords`, the processor, and two traces
kept for the statements: the paths handed to `parse` and the `onJob` calls made, in
order. -/
structure WalkState (σ : Type) where
  workflowCallRecords : GoMap Unit
  proc : σ
  parsed : List String
  invoked : List (String × Job)

/-- State of `newWorkflowWalker()` with a processor in state `p`. -/
def newWorkflowWalker {σ : Type} (p : σ) : WalkState σ :=
  { workflowCallRecords := ∅, proc := p, parsed := [], invoked := [] }

def shouldWalkPath (records : GoMap Unit) (path : String) : Bool :=
  (AList.lookup path records).isNone

def shouldWalkWorkflowCall (records : GoMap Unit) (c : WorkflowCall) : Bool :=
  match c.Uses with
  | none => false
  | some u => (AList.lookup u.Value records).isNone

def recordWorkflowCall (records : GoMap Unit) (c : WorkflowCall) :
    Except String (GoMap Unit) :=
  match c.Uses with
  | none => Except.error "cannot record workflow call: uses is nil"
  | some u => Except.ok (AList.insert u.Value () records)

/-- Result of a call of `walk`: `none` while the call has not returned within the given
recursion depth, `some none` for a nil error, `some (some e)` for the error `e`. -/
abbrev WalkResult := Option (Option String)

/-- The loop `for _, job := range w.Jobs` of `walk` over the jobs still to visit; `self`
is the recursive call `r.walk(_, p)`.  After `shouldWalkWorkflowCall` has answered true,
`wfc.Uses` is not nil, so the branch for a nil `Uses` below is never taken. -/
def walkJobs {σ : Type} (fs : FileSystem) (p : workflowProcessor σ)
    (self : String → WalkState σ → WalkResult × WalkState σ) (path : String) :
    List (Sigma (fun _ : String => Job)) → WalkState σ → WalkResult × WalkState σ
  | [], s => (some none, s)
  | ⟨_, job⟩ :: rest, s =>
    let s1 : WalkState σ :=
      { s with proc := (p.onJob s.proc path job).1, invoked := s.invoked ++ [(path, job)] }
    match (p.onJob s.proc path job).2 with
    | some err => (some (some err), s1)
    | none =>
      match job.WorkflowCall with
      | none => walkJobs fs p self path rest s1
      | some wfc =>
        if shouldWalkWorkflowCall s1.workflowCallRecords wfc then
          match wfc.Uses with
          | none => (some none, s1)
          | some u =>
            if fs.stat u.Value then
              match self u.Value s1 with
              | (none, s2) => (none, s2)
              | (some (some err), s2) => (some (some err), s2)
              | (some none, s2) =>
                match recordWorkflowCall s2.workflowCallRecords wfc with
                | Except.error err => (some (some err), s2)
                | Except.ok records =>
                  walkJobs fs p self path rest { s2 with workflowCallRecords := records }
            else (some none, s1)
        else walkJobs fs p self path rest s1

/-- Method `workflowWalker.walk`, with a bound `depth` on the nesting of recursive
calls. -/
def walk {σ : Type} (fs : FileSystem) (p : workflowProcessor σ) :
    Nat → String → WalkState σ → WalkResult × WalkState σ
  | 0, _, s => (none, s)
  | depth + 1, path, s =>
    if shouldWalkPath s.workflowCallRecords path then
      match fs.openParse path with
      | Except.error err => (some (some err), s)
      | Except.ok parsed =>
        let s1 : WalkState σ := { s with parsed := s.parsed ++ [path] }
        match parsed with
        | Except.error err => (some (some err), s1)
        | Except.ok none => (some none, s1)
        | Except.ok (some w) =>
          match w.Jobs with
          | none => (some none, s1)
          | some jobs => walkJobs fs p (walk fs p depth) path jobs.entries s1
    else (some none, s)

/-! ## Auxiliary definitions used to state the lemmas -/

/-- What `add` leaves under its key: the new entry, unless an entry of at least that
scope is already stored. -/
def addResult (old : Option jobPermission) (e : jobPermission) : jobPermission :=
  match old with
  | none => e
  | some c => if c.scope < e.scope then e else c

/-- One iteration of a `range` loop whose body adds at most one entry under the
visited key: `sel k v` is the entry added for the pair `(k, v)`, if any. -/
def addSel {V : Type} (sel : String → V → Option jobPermission) (r : jobPermissions)
    (kv : Sigma (fun _ : String => V)) : jobPermissions :=
  match sel kv.1 kv.2 with
  | none => r
  | some e => jobPermissions.add r kv.1 e.repository e.scope e.pos

/-- The entry that one step contributes under key `k`: the scope its action is configured
to need for `k`, with the action name and the step position; `none` when the action is
not configured or its permission set has no key `k`. -/
def stepReq (c : checker) (k : String) (a : stepAction) : Option jobPermission :=
  match c.config.getPermissionConfig a.actionName with
  | none => none
  | some pc =>
    match AList.lookup k pc with
    | none => none
    | some v => some ⟨newJobPermissionsFromString v, a.actionName, a.pos⟩

/-- The declared map that `onJob` starts from: the loaded scopes when the job has a
permissions block with a non-nil scope map, the empty map otherwise. -/
def declaredPermissions (job : Job) : jobPermissions :=
  match job.Permissions with
  | some perms =>
    match perms.Scopes with
    | some scopes => loadJobPermissions scopes
    | none => newJobPermissions
  | none => newJobPermissions

/-- The findings `onJob` appends for the entries of one result map. -/
def findingsOf (msg : String → jobPermission → String) (path : String)
    (m : jobPermissions) : List LintErr :=
  m.entries.map (fun kv => newLintErr (msg kv.1 kv.2) path kv.2.pos)

/-- Relation between the result of a stretch of a walk and the traces before (`s`) and
after (`s'`) it: the traces only grow, a file parsed in the stretch whose parse failed
with `e` makes the result the error `e`, and `onJob` was only called with paths that
parse. -/
def parseInv {σ : Type} (fs : FileSystem) (res : WalkResult) (s s' : WalkState σ) : Prop :=
  ∃ nP nI, s'.parsed = s.parsed ++ nP ∧ s'.invoked = s.invoked ++ nI ∧
    (∀ f e, f ∈ nP → fs.openParse f = Except.ok (Except.error e) → res = some (some e)) ∧
    (∀ i ∈ nI, ∃ w, fs.openParse i.1 = Except.ok (Except.ok w))

/-- Jobs of the workflow in file `f`, in the order `walk` visits them; empty when the
file cannot be opened or parsed, or holds no job map. -/
def jobsOf (fs : FileSystem) (f : String) : List Job :=
  match fs.openParse f with
  | Except.ok (Except.ok (some w)) =>
    match w.Jobs with
    | some jobs => jobs.entries.map (fun kv => kv.2)
    | none => []
  | _ => []

/-- Locator of the workflow a job calls, if it calls one. -/
def callTarget (job : Job) : Option String :=
  match job.WorkflowCall with
  | some wfc =>
    match wfc.Uses with
    | some u => some u.Value
    | none => none
  | none => none

/-- The `onJob` calls expected for file `f`: one per job, in order. -/
def expectedCalls (fs : FileSystem) (f : String) : List (String × Job) :=
  (jobsOf fs f).map (fun j => (f, j))

/-- State after `onJob` has been called on `job` of the file `path`. -/
def afterOnJob {σ : Type} (p : workflowProcessor σ) (s : WalkState σ) (path : String)
    (job : Job) : WalkState σ :=
  { s with proc := (p.onJob s.proc path job).1, invoked := s.invoked ++ [(path, job)] }

/-- Processor state after the `onJob` calls `calls`, made in order from state `st`. -/
def replayCalls {σ : Type} (p : workflowProcessor σ) (st : σ) (calls : List (String × Job)) :
    σ :=
  calls.foldl (fun acc i => (p.onJob acc i.1 i.2).1) st

/-- What the loop over the jobs of `path` did between the states `s` and `s'`: it parsed
the files `nP` and made the calls `nI`, of which those for `path` are `own`. -/
def stretch {σ : Type} (fs : FileSystem) (p : workflowProcessor σ) (rank : String → Nat)
    (path : String) (own : List (String × Job)) (s s' : WalkState σ) (nP : List String)
    (nI : List (String × Job)) : Prop :=
  s'.parsed = s.parsed ++ nP ∧
  s'.invoked = s.invoked ++ nI ∧
  s'.proc = replayCalls p s.proc nI ∧
  (∀ x, x ∈ s'.workflowCallRecords ↔ x ∈ s.workflowCallRecords ∨ x ∈ nP) ∧
  (∀ x ∈ nP, x ∉ s.workflowCallRecords ∧ rank x < rank path) ∧
  nP.Nodup ∧
  (∀ f, nI.filter (fun i => decide (i.1 = f))
      = (if f = path then own else []) ++ (if f ∈ nP then expectedCalls fs f else [])) ∧
  (∀ i ∈ own, ∀ t, callTarget i.2 = some t → t ∈ s'.workflowCallRecords) ∧
  (∀ f ∈ nP, ∀ j ∈ jobsOf fs f, ∀ t, callTarget j = some t → t ∈ s'.workflowCallRecords)

/-- What a call of `walk` on `path` did between the states `s` and `s'`: it parsed `path`
and then the files `tail`, and made the calls `nI`. -/
def walked {σ : Type} (fs : FileSystem) (p : workflowProcessor σ) (rank : String → Nat)
    (path : String) (s s' : WalkState σ) (tail : List String) (nI : List (String × Job)) :
    Prop :=
  s'.parsed = s.parsed ++ path :: tail ∧
  s'.invoked = s.invoked ++ nI ∧
  s'.proc = replayCalls p s.proc nI ∧
  (∀ x, x ∈ s'.workflowCallRecords ↔ x ∈ s.workflowCallRecords ∨ x ∈ tail) ∧
  (∀ x ∈ tail, x ∉ s.workflowCallRecords ∧ rank x < rank path) ∧
  tail.Nodup ∧
  (∀ f, nI.filter (fun i => decide (i.1 = f))
      = if f ∈ path :: tail then expectedCalls fs f else []) ∧
  (∀ f ∈ path :: tail, ∀ j ∈ jobsOf fs f, ∀ t, callTarget j = some t →
      t ∈ s'.workflowCallRecords)

/-! ## Concrete workflows and configurations -/

/-- Configuration `actions/checkout: {contents: write}`. -/
def exConfigWrite : Config :=
  ⟨AList.insert "actions/checkout" (some (AList.insert "contents" "write" ∅)) ∅⟩

/-- Configuration `actions/checkout: {contents: read}`. -/
def exConfigRead : Config :=
  ⟨AList.insert "actions/checkout" (some (AList.insert "contents" "read" ∅)) ∅⟩

/-- Configuration with no repository. -/
def exConfigEmpty : Config := ⟨∅⟩

/-- Step `run: make`. -/
def exStepRun : Step := ⟨some Exec.ExecRun⟩

/-- Step `uses: actions/checkout@v3` at line 7, column 15. -/
def exStepCheckout : Step :=
  ⟨some (Exec.ExecAction ⟨"actions/checkout@v3", some ⟨7, 15⟩⟩)⟩

/-- Step `uses: foo/bar@v1` at line 9, column 15. -/
def exStepFooBar : Step :=
  ⟨some (Exec.ExecAction ⟨"foo/bar@v1", some ⟨9, 15⟩⟩)⟩

/-- Job `build` with no permissions block and no step. -/
def exJobBare : Job :=
  { ID := ⟨"build", none⟩, Permissions := none, Steps := [], WorkflowCall := none }

/-- Job `build` with no permissions block, a shell step and a checkout step. -/
def exJobNoBlock : Job :=
  { ID := ⟨"build", none⟩, Permissions := none, Steps := [exStepRun, exStepCheckout],
    WorkflowCall := none }

/-- Job `build` with `permissions: {}` and a checkout step. -/
def exJobEmptyBlock : Job :=
  { ID := ⟨"build", none⟩, Permissions := some ⟨some ∅⟩, Steps := [exStepCheckout],
    WorkflowCall := none }

/-- Declared block `contents: write`, the value at line 4, column 17. -/
def exScopesContentsWrite : GoMap PermissionScope :=
  AList.insert "contents" ⟨⟨"contents", some ⟨4, 7⟩⟩, ⟨"write", some ⟨4, 17⟩⟩⟩ ∅

/-- Job `build` declaring `contents: write`, with a checkout step. -/
def exJobContentsWrite : Job :=
  { ID := ⟨"build", none⟩, Permissions := some ⟨some exScopesContentsWrite⟩,
    Steps := [exStepCheckout], WorkflowCall := none }

/-- Declared block `issues: write`, the value at line 4, column 15. -/
def exScopesIssuesWrite : GoMap PermissionScope :=
  AList.insert "issues" ⟨⟨"issues", some ⟨4, 7⟩⟩, ⟨"write", some ⟨4, 15⟩⟩⟩ ∅

/-- Job `triage` declaring `issues: write`, whose only action is not configured. -/
def exJobIssuesWrite : Job :=
  { ID := ⟨"triage", none⟩, Permissions := some ⟨some exScopesIssuesWrite⟩,
    Steps := [exStepFooBar], WorkflowCall := none }

/-- Configuration in which `actions/checkout` is listed with no permission set (nil). -/
def exConfigNilRepo : Config := ⟨AList.insert "actions/checkout" none ∅⟩

/-- Configuration in which a repository with a nil permission set is visited before a
repository whose name has no `/`. -/
def exConfigNilThenBadName : Config :=
  ⟨AList.insert "actions/checkout" none (AList.insert "checkout" (some ∅) ∅)⟩

/-- One finding, as `onJob` produces it. -/
def exFinding : LintErr :=
  ⟨"job build has insufficient permission: contents:write (required by actions/checkout)",
    "ci.yml", 7, 15⟩

/-- Job `call` that calls the reusable workflow `./missing.yml`. -/
def exJobCallsMissing : Job :=
  { ID := ⟨"call", none⟩, Permissions := none, Steps := [],
    WorkflowCall := some ⟨some ⟨"./missing.yml", some ⟨3, 11⟩⟩⟩ }

/-- Workflow with the job `call`, visited first, and the job `build` of `exJobNoBlock`. -/
def exWorkflowMissingCall : Workflow :=
  ⟨some (AList.insert "call" exJobCallsMissing (AList.insert "build" exJobNoBlock ∅))⟩

/-- Files: `ci.yml` holds `exWorkflowMissingCall`; nothing else exists. -/
def exFsMissingCall : FileSystem :=
  { openParse := fun path =>
      if path = "ci.yml" then Except.ok (Except.ok (some exWorkflowMissingCall))
      else Except.error "no such file or directory",
    stat := fun path => path = "ci.yml" }

/-- Job `again` that calls the workflow `loop.yml`. -/
def exJobCallsLoop : Job :=
  { ID := ⟨"again", none⟩, Permissions := none, Steps := [],
    WorkflowCall := some ⟨some ⟨"loop.yml", some ⟨3, 11⟩⟩⟩ }

/-- Files: `loop.yml` holds one job, which calls `loop.yml`. -/
def exFsSelfCall : FileSystem :=
  { openParse := fun path =>
      if path = "loop.yml" then
        Except.ok (Except.ok (some ⟨some (AList.insert "again" exJobCallsLoop ∅)⟩))
      else Except.error "no such file or directory",
    stat := fun path => path = "loop.yml" }

/-- Job `first` that calls `b.yml`. -/
def exJobCallsB : Job :=
  { ID := ⟨"first", none⟩, Permissions := none, Steps := [],
    WorkflowCall := some ⟨some ⟨"b.yml", some ⟨3, 11⟩⟩⟩ }

/-- Job `second` that calls `c.yml`. -/
def exJobCallsC : Job :=
  { ID := ⟨"second", none⟩, Permissions := none, Steps := [],
    WorkflowCall := some ⟨some ⟨"c.yml", some ⟨5, 11⟩⟩⟩ }

/-- Job `via` that calls `b.yml`. -/
def exJobViaB : Job :=
  { ID := ⟨"via", none⟩, Permissions := none, Steps := [],
    WorkflowCall := some ⟨some ⟨"b.yml", some ⟨3, 11⟩⟩⟩ }

/-- Files of a diamond: `a.yml` calls `b.yml` and then `c.yml`, `c.yml` calls `b.yml`, and
`b.yml` holds the job `build` of `exJobNoBlock`. -/
def exFsDiamond : FileSystem :=
  { openParse := fun path =>
      if path = "a.yml" then
        Except.ok (Except.ok (some
          ⟨some (AList.insert "first" exJobCallsB (AList.insert "second" exJobCallsC ∅))⟩))
      else if path = "b.yml" then
        Except.ok (Except.ok (some ⟨some (AList.insert "build" exJobNoBlock ∅)⟩))
      else if path = "c.yml" then
        Except.ok (Except.ok (some ⟨some (AList.insert "via" exJobViaB ∅)⟩))
      else Except.error "no such file or directory",
    stat := fun path => path = "a.yml" ∨ path = "b.yml" ∨ path = "c.yml" }

/-- Height of a file of the diamond in its call graph. -/
def exRankDiamond (path : String) : Nat :=
  if path = "a.yml" then 2 else if path = "c.yml" then 1 else 0

/-- Configuration `actions/checkout: {contents: write, issues: read}`, the pairs visited in
this order. -/
def exConfigTwoPairs : Config :=
  ⟨AList.insert "actions/checkout"
    (some (AList.insert "contents" "write" (AList.insert "issues" "read" ∅))) ∅⟩

/-- The same configuration, the pairs visited in the other order. -/
def exConfigTwoPairsSwapped : Config :=
  ⟨AList.insert "actions/checkout"
    (some (AList.insert "issues" "read" (AList.insert "contents" "write" ∅))) ∅⟩

/-- Declared block `contents: Write`, with a scope token that is not recognized. -/
def exScopesCapitalWrite : GoMap PermissionScope :=
  AList.insert "contents" ⟨⟨"contents", some ⟨4, 7⟩⟩, ⟨"Write", some ⟨4, 17⟩⟩⟩ ∅

/-- Configuration in which `actions/cache` has a valid permission set and is visited
before `actions/checkout`, which has none (nil). -/
def exConfigValidThenNil : Config :=
  ⟨AList.insert "actions/cache" (some (AList.insert "contents" "read" ∅))
    (AList.insert "actions/checkout" none ∅)⟩

/-- Job `first` that calls `ok.yml`. -/
def exJobCallsOk : Job :=
  { ID := ⟨"first", none⟩, Permissions := none, Steps := [],
    WorkflowCall := some ⟨some ⟨"ok.yml", some ⟨3, 11⟩⟩⟩ }

/-- Job `second` that calls `mid.yml`. -/
def exJobCallsMid : Job :=
  { ID := ⟨"second", none⟩, Permissions := none, Steps := [],
    WorkflowCall := some ⟨some ⟨"mid.yml", some ⟨5, 11⟩⟩⟩ }

/-- Job `via` that calls `bad.yml`. -/
def exJobCallsBad : Job :=
  { ID := ⟨"via", none⟩, Permissions := none, Steps := [],
    WorkflowCall := some ⟨some ⟨"bad.yml", some ⟨3, 11⟩⟩⟩ }

/-- Files with a parse failure two calls deep: `top.yml` calls `ok.yml` and then
`mid.yml`, `ok.yml` holds the job `build` of `exJobBare`, `mid.yml` calls `bad.yml`, and
`bad.yml` opens but does not parse. -/
def exFsParseError : FileSystem :=
  { openParse := fun path =>
      if path = "top.yml" then
        Except.ok (Except.ok (some
          ⟨some (AList.insert "first" exJobCallsOk (AList.insert "second" exJobCallsMid ∅))⟩))
      else if path = "ok.yml" then
        Except.ok (Except.ok (some ⟨some (AList.insert "build" exJobBare ∅)⟩))
      else if path = "mid.yml" then
        Except.ok (Except.ok (some ⟨some (AList.insert "via" exJobCallsBad ∅)⟩))
      else if path = "bad.yml" then
        Except.ok (Except.error "bad.yml:1:1: could not parse as YAML")
      else Except.error "no such file or directory",
    stat := fun path =>
      path = "top.yml" ∨ path = "ok.yml" ∨ path = "mid.yml" ∨ path = "bad.yml" }

/-! ## Lemmas -/

theorem add_lookup_self (m : jobPermissions) (k r : String) (s : jobPermissionScope)
    (pos : Option Pos) :
    AList.lookup k (jobPermissions.add m k r s pos)
      = some (addResult (AList.lookup k m) ⟨s, r, pos⟩) := by
  unfold jobPermissions.add addResult jobPermissionScope.lowerThan
  cases h : AList.lookup k m with
  | none =>
    by_cases hs : jobPermission.zero.scope < s <;> simp [hs, AList.lookup_insert]
  | some c =>
    by_cases hs : c.scope < s <;> simp [hs, h, AList.lookup_insert]

theorem add_lookup_ne (m : jobPermissions) (k k' r : String) (s : jobPermissionScope)
    (pos : Option Pos) (hne : k' ≠ k) :
    AList.lookup k' (jobPermissions.add m k r s pos) = AList.lookup k' m := by
  unfold jobPermissions.add jobPermissionScope.lowerThan
  cases h : AList.lookup k m with
  | none =>
    by_cases hs : jobPermission.zero.scope < s <;> simp [hs, AList.lookup_insert_ne hne]
  | some c =>
    by_cases hs : c.scope < s <;> simp [hs, AList.lookup_insert_ne hne]

theorem addSel_lookup_self {V : Type} (sel : String → V → Option jobPermission)
    (r : jobPermissions) (k : String) (v : V) :
    AList.lookup k (addSel sel r ⟨k, v⟩)
      = match sel k v with
        | none => AList.lookup k r
        | some e => some (addResult (AList.lookup k r) e) := by
  unfold addSel
  cases h : sel k v with
  | none => simp
  | some e => simp [add_lookup_self]

theorem addSel_lookup_ne {V : Type} (sel : String → V → Option jobPermission)
    (r : jobPermissions) (k k' : String) (v : V) (hne : k' ≠ k) :
    AList.lookup k' (addSel sel r ⟨k, v⟩) = AList.lookup k' r := by
  unfold addSel
  cases h : sel k v with
  | none => simp
  | some e => simp [add_lookup_ne _ _ _ _ _ _ hne]

theorem foldl_addSel_lookup {V : Type} (sel : String → V → Option jobPermission)
    (l : List (Sigma (fun _ : String => V))) (nd : l.NodupKeys) (r : jobPermissions)
    (k : String) :
    AList.lookup k (l.foldl (addSel sel) r)
      = match l.dlookup k with
        | none => AList.lookup k r
        | some v =>
          match sel k v with
          | none => AList.lookup k r
          | some e => some (addResult (AList.lookup k r) e) := by
  induction l generalizing r with
  | nil => simp
  | cons hd tl ih =>
    obtain ⟨k0, v0⟩ := hd
    rw [List.nodupKeys_cons] at nd
    obtain ⟨hk0, ndtl⟩ := nd
    rw [List.foldl_cons, ih ndtl]
    by_cases hk : k = k0
    · subst hk
      have hnone : List.dlookup k tl = none := List.dlookup_eq_none.mpr hk0
      rw [hnone, List.dlookup_cons_eq]
      simp only []
      exact addSel_lookup_self sel r k v0
    · have hne : k0 ≠ k := fun h => hk h.symm
      rw [List.dlookup_cons_ne _ _ hk, addSel_lookup_ne sel r k0 k v0 hk]

theorem excessive_lookup (p q : jobPermissions) (k : String) :
    AList.lookup k (jobPermissions.excessivePermissions p q)
      = match AList.lookup k p with
        | none => none
        | some pv =>
          match AList.lookup k q with
          | none => some pv
          | some qv => if qv.scope < pv.scope then some pv else none := by
  have h1 : (fun (r : jobPermissions) (kv : Sigma (fun _ : String => jobPermission)) =>
        match AList.lookup kv.1 q with
        | none => jobPermissions.add r kv.1 kv.2.repository kv.2.scope kv.2.pos
        | some _ => r)
      = addSel (fun k v => match AList.lookup k q with
                          | none => some v
                          | some _ => none) := by
    funext r kv
    unfold addSel
    cases h : AList.lookup kv.1 q <;> simp [h]
  have h2 : (fun (r : jobPermissions) (kv : Sigma (fun _ : String => jobPermission)) =>
        match AList.lookup kv.1 p with
        | none => r
        | some pv =>
          if jobPermissionScope.lowerThan kv.2.scope pv.scope then
            jobPermissions.add r kv.1 pv.repository pv.scope pv.pos
          else r)
      = addSel (fun k v => match AList.lookup k p with
                          | none => none
                          | some pv => if v.scope < pv.scope then some pv else none) := by
    funext r kv
    unfold addSel jobPermissionScope.lowerThan
    cases h : AList.lookup kv.1 p with
    | none => simp [h]
    | some pv => by_cases hs : kv.2.scope < pv.scope <;> simp [hs, h]
  unfold jobPermissions.excessivePermissions
  simp only [h1, h2]
  rw [foldl_addSel_lookup _ _ q.nodupKeys, foldl_addSel_lookup _ _ p.nodupKeys]
  rw [show List.dlookup k q.entries = AList.lookup k q from rfl,
    show List.dlookup k p.entries = AList.lookup k p from rfl]
  cases hp : AList.lookup k p with
  | none => cases hq : AList.lookup k q <;> simp
  | some pv =>
    cases hq : AList.lookup k q with
    | none => simp [addResult]
    | some qv => by_cases hs : qv.scope < pv.scope <;> simp [hs, addResult]

theorem derive_snoc_lookup (c : checker) (steps : List stepAction) (a : stepAction)
    (k : String) :
    AList.lookup k (c.deriveJobPermissions (steps ++ [a]))
      = match stepReq c k a with
        | none => AList.lookup k (c.deriveJobPermissions steps)
        | some e => some (addResult (AList.lookup k (c.deriveJobPermissions steps)) e) := by
  unfold checker.deriveJobPermissions stepReq
  rw [List.foldl_append, List.foldl_cons, List.foldl_nil]
  cases hc : c.config.getPermissionConfig a.actionName with
  | none => simp
  | some pc =>
    have hf : (fun (d : jobPermissions) (kv : Sigma (fun _ : String => String)) =>
          jobPermissions.add d kv.1 a.actionName (newJobPermissionsFromString kv.2) a.pos)
        = addSel (fun _ v => some ⟨newJobPermissionsFromString v, a.actionName, a.pos⟩) := by
      funext d kv
      simp [addSel]
    simp only [hf]
    rw [foldl_addSel_lookup _ _ pc.nodupKeys]
    rw [show List.dlookup k pc.entries = AList.lookup k pc from rfl]
    cases hv : AList.lookup k pc <;> simp

theorem derive_nil (c : checker) : c.deriveJobPermissions [] = (∅ : jobPermissions) := rfl

theorem derive_inv (c : checker) (k : String) (steps : List stepAction) :
    (AList.lookup k (c.deriveJobPermissions steps) = none ↔
        ∀ a ∈ steps, stepReq c k a = none) ∧
    ∀ e, AList.lookup k (c.deriveJobPermissions steps) = some e →
      (∀ a ∈ steps, ∀ x, stepReq c k a = some x → x.scope ≤ e.scope) ∧
      ∃ pre a post, steps = pre ++ a :: post ∧ stepReq c k a = some e ∧
        ∀ b ∈ pre, ∀ x, stepReq c k b = some x → x.scope < e.scope := by
  induction steps using List.reverseRecOn with
  | nil => simp [derive_nil]
  | append_singleton l a ih =>
    obtain ⟨ihn, ihs⟩ := ih
    rw [derive_snoc_lookup]
    cases hr : stepReq c k a with
    | none =>
      refine ⟨?_, ?_⟩
      · simp only [ihn, List.mem_append, List.mem_singleton]
        constructor
        · intro h b hb
          rcases hb with hb | hb
          · exact h b hb
          · subst hb; exact hr
        · intro h b hb
          exact h b (Or.inl hb)
      · intro e he
        obtain ⟨hmax, pre, b, post, hl, hb, hpre⟩ := ihs e he
        refine ⟨?_, pre, b, post ++ [a], ?_, hb, hpre⟩
        · intro x hx y hy
          rcases List.mem_append.mp hx with hx | hx
          · exact hmax x hx y hy
          · rw [List.mem_singleton] at hx
            subst hx
            rw [hr] at hy
            cases hy
        · rw [hl]; simp
    | some x =>
      refine ⟨?_, ?_⟩
      · constructor
        · intro h; cases h
        · intro h
          have := h a (by simp)
          rw [hr] at this
          cases this
      · intro e he
        simp only [Option.some.injEq] at he
        cases hold : AList.lookup k (c.deriveJobPermissions l) with
        | none =>
          have hall := ihn.mp hold
          rw [hold] at he
          simp only [addResult] at he
          subst he
          refine ⟨?_, l, a, [], rfl, hr, ?_⟩
          · intro b hb y hy
            rcases List.mem_append.mp hb with hb | hb
            · rw [hall b hb] at hy; cases hy
            · rw [List.mem_singleton] at hb
              subst hb
              rw [hr] at hy
              cases hy
              exact le_refl _
          · intro b hb y hy
            rw [hall b hb] at hy; cases hy
        | some cur =>
          obtain ⟨hmax, pre, b, post, hl, hb, hpre⟩ := ihs cur hold
          rw [hold] at he
          simp only [addResult] at he
          by_cases hlt : cur.scope < x.scope
          · rw [if_pos hlt] at he
            subst he
            refine ⟨?_, l, a, [], rfl, hr, ?_⟩
            · intro b' hb' y hy
              rcases List.mem_append.mp hb' with hb' | hb'
              · exact le_of_lt (lt_of_le_of_lt (hmax b' hb' y hy) hlt)
              · rw [List.mem_singleton] at hb'
                subst hb'
                rw [hr] at hy
                cases hy
                exact le_refl _
            · intro b' hb' y hy
              exact lt_of_le_of_lt (hmax b' hb' y hy) hlt
          · rw [if_neg hlt] at he
            subst he
            refine ⟨?_, pre, b, post ++ [a], ?_, hb, hpre⟩
            · intro b' hb' y hy
              rcases List.mem_append.mp hb' with hb' | hb'
              · exact hmax b' hb' y hy
              · rw [List.mem_singleton] at hb'
                subst hb'
                rw [hr] at hy
                cases hy
                exact not_lt.mp hlt
            · rw [hl]; simp

theorem insufficient_lookup (p q : jobPermissions) (k : String) :
    AList.lookup k (jobPermissions.insufficientPermissions p q)
      = match AList.lookup k q with
        | none => none
        | some qv =>
          match AList.lookup k p with
          | none => some qv
          | some pv => if pv.scope < qv.scope then some qv else none := by
  have h1 : (fun (r : jobPermissions) (kv : Sigma (fun _ : String => jobPermission)) =>
        match AList.lookup kv.1 p with
        | none => jobPermissions.add r kv.1 kv.2.repository kv.2.scope kv.2.pos
        | some _ => r)
      = addSel (fun k v => match AList.lookup k p with
                          | none => some v
                          | some _ => none) := by
    funext r kv
    unfold addSel
    cases h : AList.lookup kv.1 p <;> simp [h]
  have h2 : (fun (r : jobPermissions) (kv : Sigma (fun _ : String => jobPermission)) =>
        match AList.lookup kv.1 q with
        | none => r
        | some qv =>
          if jobPermissionScope.lowerThan kv.2.scope qv.scope then
            jobPermissions.add r kv.1 qv.repository qv.scope qv.pos
          else r)
      = addSel (fun k v => match AList.lookup k q with
                          | none => none
                          | some qv => if v.scope < qv.scope then some qv else none) := by
    funext r kv
    unfold addSel jobPermissionScope.lowerThan
    cases h : AList.lookup kv.1 q with
    | none => simp [h]
    | some qv => by_cases hs : kv.2.scope < qv.scope <;> simp [hs, h]
  unfold jobPermissions.insufficientPermissions
  simp only [h1, h2]
  rw [foldl_addSel_lookup _ _ p.nodupKeys, foldl_addSel_lookup _ _ q.nodupKeys]
  rw [show List.dlookup k q.entries = AList.lookup k q from rfl,
    show List.dlookup k p.entries = AList.lookup k p from rfl]
  cases hq : AList.lookup k q with
  | none => cases hp : AList.lookup k p <;> simp
  | some qv =>
    cases hp : AList.lookup k p with
    | none => simp [addResult]
    | some pv => by_cases hs : pv.scope < qv.scope <;> simp [hs, addResult]

theorem mem_iff_lookup_some {V : Type} (m : GoMap V) (k : String) :
    k ∈ m ↔ ∃ v, AList.lookup k m = some v := by
  rw [← AList.lookup_isSome, Option.isSome_iff_exists]

/-- C1: `p.excessivePermissions(q)` has key `k` exactly when `k` is in `p` and either `k` is
absent from `q` or `q[k].scope < p[k].scope`; the entry stored under such a key is the
declared entry `p[k]` itself (scope, provenance and position). -/
theorem excessivePermissions_spec (p q : jobPermissions) (k : String) :
    (k ∈ jobPermissions.excessivePermissions p q ↔
        ∃ pv, AList.lookup k p = some pv ∧
          (AList.lookup k q = none ∨
            ∃ qv, AList.lookup k q = some qv ∧ qv.scope < pv.scope)) ∧
    (∀ e, AList.lookup k (jobPermissions.excessivePermissions p q) = some e →
        AList.lookup k p = some e) := by
  rw [mem_iff_lookup_some, excessive_lookup]
  cases hp : AList.lookup k p with
  | none => simp
  | some pv =>
    cases hq : AList.lookup k q with
    | none => simp
    | some qv => by_cases hs : qv.scope < pv.scope <;> simp [hs]

/-- C2: `p.insufficientPermissions(q)` has key `k` exactly when `k` is in `q` and either `k`
is absent from `p` or `p[k].scope < q[k].scope`; the entry stored under such a key is the
derived entry `q[k]` itself (scope, provenance and position). -/
theorem insufficientPermissions_spec (p q : jobPermissions) (k : String) :
    (k ∈ jobPermissions.insufficientPermissions p q ↔
        ∃ qv, AList.lookup k q = some qv ∧
          (AList.lookup k p = none ∨
            ∃ pv, AList.lookup k p = some pv ∧ pv.scope < qv.scope)) ∧
    (∀ e, AList.lookup k (jobPermissions.insufficientPermissions p q) = some e →
        AList.lookup k q = some e) := by
  rw [mem_iff_lookup_some, insufficient_lookup]
  cases hq : AList.lookup k q with
  | none => simp
  | some qv =>
    cases hp : AList.lookup k p with
    | none => simp
    | some pv => by_cases hs : pv.scope < qv.scope <;> simp [hs]

/-- C3: no key is in both `p.excessivePermissions(q)` and `p.insufficientPermissions(q)`. -/
theorem excessive_insufficient_disjoint (p q : jobPermissions) (k : String) :
    ¬ (k ∈ jobPermissions.excessivePermissions p q ∧
        k ∈ jobPermissions.insufficientPermissions p q) := by
  rw [mem_iff_lookup_some, mem_iff_lookup_some, excessive_lookup, insufficient_lookup]
  cases hp : AList.lookup k p with
  | none => simp
  | some pv =>
    cases hq : AList.lookup k q with
    | none => simp
    | some qv =>
      by_cases hs : qv.scope < pv.scope
      · have hs' : ¬ pv.scope < qv.scope := not_lt.mpr (le_of_lt hs)
        simp [hs, hs']
      · simp [hs]

/-- C4: `m.add(k, r, s, pos)` leaves every other key as it was; under `k` it stores
`(s, r, pos)` when `k` was absent or its entry `e` had `e.scope < s`, and keeps `e`
otherwise.  So the stored scope is `max e.scope s`, and the provenance is that of `e` when
`s ≤ e.scope` and `r` otherwise. -/
theorem add_spec (m : jobPermissions) (k r : String) (s : jobPermissionScope)
    (pos : Option Pos) :
    (∀ k', k' ≠ k →
        AList.lookup k' (jobPermissions.add m k r s pos) = AList.lookup k' m) ∧
    (AList.lookup k m = none →
        AList.lookup k (jobPermissions.add m k r s pos) = some ⟨s, r, pos⟩) ∧
    (∀ e, AList.lookup k m = some e →
        AList.lookup k (jobPermissions.add m k r s pos)
            = some (if e.scope < s then ⟨s, r, pos⟩ else e) ∧
        ∃ e', AList.lookup k (jobPermissions.add m k r s pos) = some e' ∧
          e'.scope = max e.scope s ∧
          e'.repository = if s ≤ e.scope then e.repository else r) := by
  refine ⟨fun k' hne => add_lookup_ne m k k' r s pos hne, ?_, ?_⟩
  · intro h
    rw [add_lookup_self, h]
    rfl
  · intro e h
    rw [add_lookup_self, h]
    have hres : addResult (some e) ⟨s, r, pos⟩ = if e.scope < s then ⟨s, r, pos⟩ else e := rfl
    rw [hres]
    refine ⟨rfl, _, rfl, ?_, ?_⟩
    · by_cases hs : e.scope < s
      · simp [hs, max_eq_right (le_of_lt hs)]
      · simp [hs, max_eq_left (not_lt.mp hs)]
    · by_cases hs : e.scope < s
      · simp [hs, not_le.mpr hs]
      · simp [hs, not_lt.mp hs]

theorem stepReq_eq_some (c : checker) (k : String) (a : stepAction) (x : jobPermission) :
    stepReq c k a = some x ↔
      ∃ pc v, c.config.getPermissionConfig a.actionName = some pc ∧
        AList.lookup k pc = some v ∧
        x = ⟨newJobPermissionsFromString v, a.actionName, a.pos⟩ := by
  unfold stepReq
  cases hc : c.config.getPermissionConfig a.actionName with
  | none => simp
  | some pc =>
    cases hv : AList.lookup k pc with
    | none => simp [hv]
    | some v =>
      simp only [hv, Option.some.injEq]
      constructor
      · intro h
        exact ⟨pc, v, rfl, hv, h.symm⟩
      · rintro ⟨pc', v', hpc, hv', hx⟩
        subst hpc
        rw [hv] at hv'
        cases hv'
        exact hx.symm

theorem stepReq_eq_none (c : checker) (k : String) (a : stepAction) :
    stepReq c k a = none ↔
      ∀ pc, c.config.getPermissionConfig a.actionName = some pc → k ∉ pc := by
  unfold stepReq
  cases hc : c.config.getPermissionConfig a.actionName with
  | none => simp
  | some pc =>
    cases hv : AList.lookup k pc with
    | none =>
      have : k ∉ pc := AList.lookup_eq_none.mp hv
      simp [this, hv]
    | some v =>
      have : k ∈ pc := (mem_iff_lookup_some pc k).mpr ⟨v, hv⟩
      simp [this, hv]

/-- C5: the keys of `deriveJobPermissions` are the categories in the configured permission
set of some step action; under each key the scope is the greatest one any step action
requires, and provenance and position are those of the first step, in list order, whose
action requires that scope. -/
theorem deriveJobPermissions_spec (c : checker) (steps : List stepAction) (k : String) :
    (k ∈ c.deriveJobPermissions steps ↔
        ∃ a ∈ steps, ∃ pc, c.config.getPermissionConfig a.actionName = some pc ∧ k ∈ pc) ∧
    ∀ e, AList.lookup k (c.deriveJobPermissions steps) = some e →
      (∀ a ∈ steps, ∀ pc v, c.config.getPermissionConfig a.actionName = some pc →
          AList.lookup k pc = some v → newJobPermissionsFromString v ≤ e.scope) ∧
      ∃ pre a post pc v, steps = pre ++ a :: post ∧
        c.config.getPermissionConfig a.actionName = some pc ∧
        AList.lookup k pc = some v ∧
        e = ⟨newJobPermissionsFromString v, a.actionName, a.pos⟩ ∧
        ∀ b ∈ pre, ∀ pc' v', c.config.getPermissionConfig b.actionName = some pc' →
          AList.lookup k pc' = some v' → newJobPermissionsFromString v' < e.scope := by
  obtain ⟨hn, hs⟩ := derive_inv c k steps
  refine ⟨?_, ?_⟩
  · rw [← not_iff_not, ← AList.lookup_eq_none, hn]
    simp only [stepReq_eq_none]
    constructor
    · rintro h ⟨a, ha, pc, hpc, hk⟩
      exact h a ha pc hpc hk
    · intro h a ha pc hpc hk
      exact h ⟨a, ha, pc, hpc, hk⟩
  · intro e he
    obtain ⟨hmax, pre, a, post, hl, ha, hpre⟩ := hs e he
    obtain ⟨pc, v, hpc, hv, hx⟩ := (stepReq_eq_some c k a e).mp ha
    refine ⟨?_, pre, a, post, pc, v, hl, hpc, hv, hx, ?_⟩
    · intro b hb pc' v' hpc' hv'
      exact hmax b hb _ ((stepReq_eq_some c k b _).mpr ⟨pc', v', hpc', hv', rfl⟩)
    · intro b hb pc' v' hpc' hv'
      exact hpre b hb _ ((stepReq_eq_some c k b _).mpr ⟨pc', v', hpc', hv', rfl⟩)

theorem appendFindings_eq (msg : String → jobPermission → String) (path : String)
    (m : jobPermissions) (errs : List LintErr) :
    appendFindings msg path m errs = errs ++ findingsOf msg path m := by
  unfold appendFindings findingsOf
  generalize m.entries = l
  induction l generalizing errs with
  | nil => simp
  | cons hd tl ih => simp [List.foldl_cons, ih]

theorem guarded_appendFindings (msg : String → jobPermission → String) (path : String)
    (m : jobPermissions) (errs : List LintErr) :
    (if m.entries.length > 0 then appendFindings msg path m errs else errs)
      = errs ++ findingsOf msg path m := by
  by_cases h : m.entries.length > 0
  · rw [if_pos h, appendFindings_eq]
  · rw [if_neg h]
    have : m.entries = [] := List.length_eq_zero.mp (Nat.eq_zero_of_not_pos h)
    simp [findingsOf, this]

theorem onJob_errs (c : checker) (path : String) (job : Job) :
    (c.onJob path job).errs
      = c.errs
        ++ findingsOf (excessiveMessage job.ID.Value) path
            ((declaredPermissions job).excessivePermissions
              (c.deriveJobPermissions (c.collectUsedActions job)))
        ++ findingsOf (insufficientMessage job.ID.Value) path
            ((if (declaredPermissions job).isEmpty then (declaredPermissions job).setDefault
              else declaredPermissions job).insufficientPermissions
              (c.deriveJobPermissions (c.collectUsedActions job))) := by
  unfold checker.onJob
  simp only [guarded_appendFindings]
  rfl

theorem entries_perm_of_lookup {V : Type} (m1 m2 : GoMap V)
    (h : ∀ k, AList.lookup k m1 = AList.lookup k m2) : m1.entries.Perm m2.entries := by
  apply List.lookup_ext m1.nodupKeys m2.nodupKeys
  intro x y
  have := h x
  unfold AList.lookup at this
  rw [this]

theorem eq_empty_of_lookup {V : Type} (m : GoMap V)
    (h : ∀ k, AList.lookup k m = none) : m.entries = [] := by
  have := entries_perm_of_lookup m (∅ : GoMap V) (by intro k; rw [h k]; rfl)
  exact List.Perm.eq_nil this

theorem entries_eq_singleton_of_lookup {V : Type} (m : GoMap V) (k0 : String) (v0 : V)
    (h : ∀ k, AList.lookup k m = if k = k0 then some v0 else none) :
    m.entries = [⟨k0, v0⟩] := by
  have := entries_perm_of_lookup m (AList.singleton k0 v0) (by
    intro k
    rw [h k]
    by_cases hk : k = k0
    · subst hk; simp [AList.lookup, AList.singleton]
    · simp [hk, AList.lookup, AList.singleton, List.dlookup_cons_ne])
  exact List.perm_singleton.mp this

theorem excessive_empty_left_lookup (q : jobPermissions) (k : String) :
    AList.lookup k (jobPermissions.excessivePermissions newJobPermissions q) = none := by
  rw [excessive_lookup]
  simp [newJobPermissions]

theorem excessive_empty_left (q : jobPermissions) :
    (jobPermissions.excessivePermissions newJobPermissions q).entries = [] :=
  eq_empty_of_lookup _ (excessive_empty_left_lookup q)

theorem loadJobPermissions_nil (scopes : GoMap PermissionScope) (h : scopes.entries = []) :
    loadJobPermissions scopes = newJobPermissions := by
  unfold loadJobPermissions
  rw [h]
  rfl

theorem newJobPermissions_default :
    (if newJobPermissions.isEmpty then newJobPermissions.setDefault else newJobPermissions)
      = newJobPermissions.setDefault := rfl

theorem getPermissionConfig_of_absent (cfg : Config) (r : String)
    (h : AList.lookup r cfg.Repositories = none) : cfg.getPermissionConfig r = none := by
  unfold Config.getPermissionConfig
  rw [h]

theorem derive_append_unconfigured (c : checker) (l1 l2 : List stepAction)
    (h : ∀ a ∈ l2, c.config.getPermissionConfig a.actionName = none) :
    c.deriveJobPermissions (l1 ++ l2) = c.deriveJobPermissions l1 := by
  unfold checker.deriveJobPermissions
  rw [List.foldl_append]
  generalize List.foldl _ newJobPermissions l1 = d
  induction l2 generalizing d with
  | nil => rfl
  | cons a tl ih =>
    rw [List.foldl_cons, h a (by simp)]
    exact ih (fun b hb => h b (by simp [hb])) d

theorem derive_unconfigured (c : checker) (l : List stepAction)
    (h : ∀ a ∈ l, c.config.getPermissionConfig a.actionName = none) :
    c.deriveJobPermissions l = newJobPermissions := by
  have := derive_append_unconfigured c [] l h
  simpa using this

theorem onJob_errs_of_empty_declared (c : checker) (path : String) (job : Job)
    (hd : declaredPermissions job = newJobPermissions) :
    (c.onJob path job).errs
      = c.errs ++
        ((newJobPermissions.setDefault).insufficientPermissions
            (c.deriveJobPermissions (c.collectUsedActions job))).entries.map
          (fun kv => newLintErr (insufficientMessage job.ID.Value kv.1 kv.2) path kv.2.pos) := by
  rw [onJob_errs, hd, newJobPermissions_default]
  simp [findingsOf, excessive_empty_left]

theorem declaredPermissions_of_no_block (job : Job) (h : job.Permissions = none) :
    declaredPermissions job = newJobPermissions := by
  unfold declaredPermissions
  rw [h]

/-- C6 (amended): for a job with no permissions block `onJob` reports no excessive
finding, the excessive diff being taken on the still empty declared map, and the
insufficient findings are the entries of `D.insufficientPermissions(derived)` for the
default `D = {contents: read}`, which is set between the two diffs. -/
theorem onJob_no_permissions_block (c : checker) (path : String) (job : Job)
    (h : job.Permissions = none) :
    (c.onJob path job).errs
      = c.errs ++
        ((newJobPermissions.setDefault).insufficientPermissions
            (c.deriveJobPermissions (c.collectUsedActions job))).entries.map
          (fun kv => newLintErr (insufficientMessage job.ID.Value kv.1 kv.2) path kv.2.pos) := by
  exact onJob_errs_of_empty_declared c path job (declaredPermissions_of_no_block job h)

/-- C7 (amended): for a job whose permissions block is present but empty `onJob` finds
the declared map empty, reports no excessive finding and sets the `contents: read`
default before the insufficient diff, as for a job with no block: the insufficient
findings are the entries of `D.insufficientPermissions(derived)` with
`D = {contents: read}`. -/
theorem onJob_empty_permissions_block (c : checker) (path : String) (job : Job)
    (perms : Permissions) (scopes : GoMap PermissionScope)
    (h : job.Permissions = some perms) (hs : perms.Scopes = some scopes)
    (he : scopes.entries = []) :
    (c.onJob path job).errs
      = c.errs ++
        ((newJobPermissions.setDefault).insufficientPermissions
            (c.deriveJobPermissions (c.collectUsedActions job))).entries.map
          (fun kv => newLintErr (insufficientMessage job.ID.Value kv.1 kv.2) path kv.2.pos) := by
  have hd : declaredPermissions job = newJobPermissions := by
    unfold declaredPermissions
    rw [h]
    simp only [hs]
    exact loadJobPermissions_nil scopes he
  exact onJob_errs_of_empty_declared c path job hd

theorem lookup_of_entries_singleton {V : Type} (m : GoMap V) (k0 : String) (v0 : V)
    (h : m.entries = [⟨k0, v0⟩]) (k : String) :
    AList.lookup k m = if k = k0 then some v0 else none := by
  unfold AList.lookup
  rw [h]
  by_cases hk : k = k0
  · subst hk; simp
  · simp [hk, List.dlookup_cons_ne]

theorem stepReq_of_single (c : checker) (a : stepAction) (pc : PermissionConfig)
    (k0 v : String) (ha : c.config.getPermissionConfig a.actionName = some pc)
    (hpc : pc.entries = [⟨k0, v⟩]) (k : String) :
    stepReq c k a
      = if k = k0 then some ⟨newJobPermissionsFromString v, a.actionName, a.pos⟩
        else none := by
  unfold stepReq
  rw [ha]
  simp only [lookup_of_entries_singleton pc k0 v hpc k]
  by_cases hk : k = k0 <;> simp [hk]

theorem stepReq_of_unconfigured (c : checker) (a : stepAction) (k : String)
    (ha : c.config.getPermissionConfig a.actionName = none) : stepReq c k a = none := by
  unfold stepReq
  rw [ha]

/-- The derived map when every configured step action is the same action, whose
permission set has the single pair `(k0, v)`: one entry, with the position of the first
step that invokes the action. -/
theorem derive_single_lookup (c : checker) (pre post : List stepAction) (st : stepAction)
    (pc : PermissionConfig) (k0 v : String)
    (hpre : ∀ a ∈ pre, c.config.getPermissionConfig a.actionName = none)
    (hst : c.config.getPermissionConfig st.actionName = some pc)
    (hpc : pc.entries = [⟨k0, v⟩])
    (hpost : ∀ a ∈ post, c.config.getPermissionConfig a.actionName = none ∨
      a.actionName = st.actionName) (k : String) :
    AList.lookup k (c.deriveJobPermissions (pre ++ st :: post))
      = if k = k0 then some ⟨newJobPermissionsFromString v, st.actionName, st.pos⟩
        else none := by
  induction post using List.reverseRecOn with
  | nil =>
    rw [derive_snoc_lookup, stepReq_of_single c st pc k0 v hst hpc k,
      derive_unconfigured c pre hpre]
    by_cases hk : k = k0
    · simp [hk, newJobPermissions, addResult]
    · simp [hk, newJobPermissions]
  | append_singleton l b ih =>
    have ih := ih (fun a ha => hpost a (by simp [ha]))
    have hl : pre ++ st :: (l ++ [b]) = (pre ++ st :: l) ++ [b] := by simp
    rw [hl, derive_snoc_lookup, ih]
    rcases hpost b (by simp) with hb | hb
    · rw [stepReq_of_unconfigured c b k hb]
    · have hb' : c.config.getPermissionConfig b.actionName = some pc := by rw [hb]; exact hst
      rw [stepReq_of_single c b pc k0 v hb' hpc k]
      by_cases hk : k = k0
      · simp [hk, addResult]
      · simp [hk]

theorem default_lookup (k : String) :
    AList.lookup k (newJobPermissions.setDefault)
      = if k = "contents" then some ⟨JobPermissionScopeRead, "", none⟩ else none := by
  exact lookup_of_entries_singleton _ "contents" _ rfl k

theorem insufficientMessage_write (id name : String) (pos : Option Pos) (hn : name ≠ "") :
    insufficientMessage id "contents" ⟨JobPermissionScopeWrite, name, pos⟩
      = "job " ++ id ++ " has insufficient permission: contents:write (required by "
          ++ name ++ ")" := by
  have hlit : " has insufficient permission: contents:write (required by "
      = " has insufficient permission: " ++ ("contents" ++ (":" ++ ("write" ++ " (required by "))) := by
    decide
  have hw : jobPermissionScope.String JobPermissionScopeWrite = "write" := by decide
  unfold insufficientMessage jobPermission.String
  simp only [hn, ne_eq, not_false_eq_true, if_true, hw]
  rw [hlit]
  simp only [String.append_assoc]

/-- C8: a job with no permissions block whose configured steps all invoke one action,
mapped to `{contents: write}`, gets exactly one finding: the insufficient permission
`contents:write`, rendered with the action as provenance and placed at the first step that
invokes it; no excessive finding is appended. -/
theorem onJob_default_insufficient_write (c : checker) (path : String) (job : Job)
    (pre post : List stepAction) (st : stepAction) (pc : PermissionConfig)
    (h : job.Permissions = none)
    (hsteps : c.collectUsedActions job = pre ++ st :: post)
    (hpre : ∀ a ∈ pre, c.config.getPermissionConfig a.actionName = none)
    (hst : c.config.getPermissionConfig st.actionName = some pc)
    (hpc : pc.entries = [⟨"contents", "write"⟩])
    (hpost : ∀ a ∈ post, c.config.getPermissionConfig a.actionName = none ∨
      a.actionName = st.actionName)
    (hname : st.actionName ≠ "") :
    (c.onJob path job).errs
      = c.errs ++
        [newLintErr
          ("job " ++ job.ID.Value
            ++ " has insufficient permission: contents:write (required by "
            ++ st.actionName ++ ")")
          path st.pos] := by
  rw [onJob_errs_of_empty_declared c path job (declaredPermissions_of_no_block job h), hsteps]
  have hl : ∀ k, AList.lookup k
      ((newJobPermissions.setDefault).insufficientPermissions
        (c.deriveJobPermissions (pre ++ st :: post)))
      = if k = "contents" then some ⟨JobPermissionScopeWrite, st.actionName, st.pos⟩
        else none := by
    intro k
    rw [insufficient_lookup,
      derive_single_lookup c pre post st pc "contents" "write" hpre hst hpc hpost k,
      default_lookup]
    by_cases hk : k = "contents"
    · have hw : newJobPermissionsFromString "write" = JobPermissionScopeWrite := by decide
      have hlt : JobPermissionScopeRead < JobPermissionScopeWrite := by decide
      simp [hk, hw, hlt]
    · simp [hk]
  rw [entries_eq_singleton_of_lookup _ _ _ hl]
  simp [insufficientMessage_write _ _ _ hname]

theorem load_single (scopes : GoMap PermissionScope) (key : String) (ps : PermissionScope)
    (h : scopes.entries = [⟨key, ps⟩]) :
    (loadJobPermissions scopes).entries
      = [⟨ps.Name.Value, ⟨newJobPermissionsFromString ps.Value.Value, "", ps.Value.Pos⟩⟩] := by
  unfold loadJobPermissions
  rw [h]
  rfl

theorem excessiveMessage_write (id : String) (pos : Option Pos) :
    excessiveMessage id "contents" ⟨JobPermissionScopeWrite, "", pos⟩
      = "job " ++ id ++ " has excessive permission: contents:write" := by
  have hlit : " has excessive permission: contents:write"
      = " has excessive permission: " ++ ("contents" ++ (":" ++ "write")) := by decide
  have hw : jobPermissionScope.String JobPermissionScopeWrite = "write" := by decide
  unfold excessiveMessage jobPermission.String
  simp only [ne_eq, not_true_eq_false, if_false, hw]
  rw [hlit]
  simp only [String.append_assoc]

/-- C9 (amended): when a job declares `{contents: write}` and its only configured action
needs `{contents: read}`, the excessive set is `{contents: write}` and its entry is the
declared one, with empty provenance and the position of the declared value, so it renders
as `write` with no parenthetical; the insufficient set is empty. -/
theorem onJob_declared_write_needs_read (c : checker) (path : String) (job : Job)
    (perms : Permissions) (scopes : GoMap PermissionScope) (key : String)
    (npos vpos : Option Pos)
    (pre post : List stepAction) (st : stepAction) (pc : PermissionConfig)
    (h : job.Permissions = some perms) (hs : perms.Scopes = some scopes)
    (hsc : scopes.entries = [⟨key, ⟨⟨"contents", npos⟩, ⟨"write", vpos⟩⟩⟩])
    (hsteps : c.collectUsedActions job = pre ++ st :: post)
    (hpre : ∀ a ∈ pre, c.config.getPermissionConfig a.actionName = none)
    (hst : c.config.getPermissionConfig st.actionName = some pc)
    (hpc : pc.entries = [⟨"contents", "read"⟩])
    (hpost : ∀ a ∈ post, c.config.getPermissionConfig a.actionName = none ∨
      a.actionName = st.actionName) :
    ((loadJobPermissions scopes).excessivePermissions
        (c.deriveJobPermissions (c.collectUsedActions job))).entries
      = [⟨"contents", ⟨JobPermissionScopeWrite, "", vpos⟩⟩] ∧
    jobPermission.String ⟨JobPermissionScopeWrite, "", vpos⟩ = "write" ∧
    ((loadJobPermissions scopes).insufficientPermissions
        (c.deriveJobPermissions (c.collectUsedActions job))).entries = [] ∧
    (c.onJob path job).errs
      = c.errs ++
        [newLintErr ("job " ++ job.ID.Value ++ " has excessive permission: contents:write")
          path vpos] := by
  have hw : newJobPermissionsFromString "write" = JobPermissionScopeWrite := by decide
  have hr : newJobPermissionsFromString "read" = JobPermissionScopeRead := by decide
  have hlt : JobPermissionScopeRead < JobPermissionScopeWrite := by decide
  have hnlt : ¬ JobPermissionScopeWrite < JobPermissionScopeRead := by decide
  have hle : (loadJobPermissions scopes).entries
      = [⟨"contents", ⟨JobPermissionScopeWrite, "", vpos⟩⟩] := by
    rw [load_single scopes key _ hsc, hw]
  have hload := lookup_of_entries_singleton _ _ _ hle
  have hder := derive_single_lookup c pre post st pc "contents" "read" hpre hst hpc hpost
  have hexc : ((loadJobPermissions scopes).excessivePermissions
        (c.deriveJobPermissions (c.collectUsedActions job))).entries
      = [⟨"contents", ⟨JobPermissionScopeWrite, "", vpos⟩⟩] := by
    apply entries_eq_singleton_of_lookup
    intro k
    rw [excessive_lookup, hsteps, hder k, hload k]
    by_cases hk : k = "contents"
    · simp [hk, hr, hlt]
    · simp [hk]
  have hins : ((loadJobPermissions scopes).insufficientPermissions
        (c.deriveJobPermissions (c.collectUsedActions job))).entries = [] := by
    apply eq_empty_of_lookup
    intro k
    rw [insufficient_lookup, hsteps, hder k, hload k]
    by_cases hk : k = "contents"
    · simp [hk, hr, hnlt]
    · simp [hk]
  have hstr : jobPermission.String ⟨JobPermissionScopeWrite, "", vpos⟩ = "write" := by
    unfold jobPermission.String
    simp only [ne_eq, not_true_eq_false, if_false]
    decide
  refine ⟨hexc, hstr, hins, ?_⟩
  have hd : declaredPermissions job = loadJobPermissions scopes := by
    unfold declaredPermissions
    rw [h]
    simp only [hs]
  have hne : (loadJobPermissions scopes).isEmpty = false := by
    unfold jobPermissions.isEmpty
    rw [hle]
    rfl
  rw [onJob_errs, hd, hne]
  simp only [Bool.false_eq_true, if_false, findingsOf, hexc, hins, List.map_cons, List.map_nil,
    List.append_nil, excessiveMessage_write]

theorem load_repository_empty (scopes : GoMap PermissionScope) (k : String)
    (e : jobPermission) (h : AList.lookup k (loadJobPermissions scopes) = some e) :
    e.repository = "" := by
  unfold loadJobPermissions at h
  have key : ∀ (l : List (Sigma (fun _ : String => PermissionScope))) (m : jobPermissions),
      (∀ k e, AList.lookup k m = some e → e.repository = "") →
      ∀ k e, AList.lookup k (l.foldl
        (fun (p : jobPermissions) (kv : Sigma (fun _ : String => PermissionScope)) =>
          AList.insert kv.2.Name.Value
            ⟨newJobPermissionsFromString kv.2.Value.Value, "", kv.2.Value.Pos⟩ p) m) = some e →
        e.repository = "" := by
    intro l
    induction l with
    | nil => intro m hm k e he; exact hm k e he
    | cons hd tl ih =>
      intro m hm k e he
      rw [List.foldl_cons] at he
      refine ih _ ?_ k e he
      intro k' e' he'
      by_cases hk : k' = hd.2.Name.Value
      · subst hk
        rw [AList.lookup_insert] at he'
        cases he'
        rfl
      · rw [AList.lookup_insert_ne hk] at he'
        exact hm k' e' he'
  exact key scopes.entries ∅ (by intro k e he; simp at he) k e h

/-- C10: step actions absent from `config.Repositories` contribute nothing: the derived
map is empty, so for a job with a non-empty declared block `P` the excessive set has
exactly the entries of `P`, the insufficient set is empty, the findings appended are the
excessive ones only, and none of them names an action. -/
theorem onJob_unconfigured_actions (c : checker) (path : String) (job : Job)
    (perms : Permissions) (scopes : GoMap PermissionScope)
    (h : job.Permissions = some perms) (hs : perms.Scopes = some scopes)
    (hne : (loadJobPermissions scopes).isEmpty = false)
    (hu : ∀ a ∈ c.collectUsedActions job,
      AList.lookup a.actionName c.config.Repositories = none) :
    c.deriveJobPermissions (c.collectUsedActions job) = newJobPermissions ∧
    (∀ k, AList.lookup k ((loadJobPermissions scopes).excessivePermissions
            (c.deriveJobPermissions (c.collectUsedActions job)))
          = AList.lookup k (loadJobPermissions scopes)) ∧
    ((loadJobPermissions scopes).insufficientPermissions
        (c.deriveJobPermissions (c.collectUsedActions job))).entries = [] ∧
    (c.onJob path job).errs
      = c.errs ++
        ((loadJobPermissions scopes).excessivePermissions
            (c.deriveJobPermissions (c.collectUsedActions job))).entries.map
          (fun kv => newLintErr (excessiveMessage job.ID.Value kv.1 kv.2) path kv.2.pos) ∧
    (∀ k e, AList.lookup k ((loadJobPermissions scopes).excessivePermissions
            (c.deriveJobPermissions (c.collectUsedActions job))) = some e →
        e.repository = "") := by
  have hder : c.deriveJobPermissions (c.collectUsedActions job) = newJobPermissions :=
    derive_unconfigured c _ (fun a ha => getPermissionConfig_of_absent _ _ (hu a ha))
  have hexc : ∀ k, AList.lookup k ((loadJobPermissions scopes).excessivePermissions
        (c.deriveJobPermissions (c.collectUsedActions job)))
      = AList.lookup k (loadJobPermissions scopes) := by
    intro k
    rw [excessive_lookup, hder]
    cases AList.lookup k (loadJobPermissions scopes) <;> simp [newJobPermissions]
  have hins : ((loadJobPermissions scopes).insufficientPermissions
        (c.deriveJobPermissions (c.collectUsedActions job))).entries = [] := by
    apply eq_empty_of_lookup
    intro k
    rw [insufficient_lookup, hder]
    simp [newJobPermissions]
  refine ⟨hder, hexc, hins, ?_, ?_⟩
  · have hd : declaredPermissions job = loadJobPermissions scopes := by
      unfold declaredPermissions
      rw [h]
      simp only [hs]
    rw [onJob_errs, hd, hne]
    simp only [Bool.false_eq_true, if_false, findingsOf, hins, List.map_nil, List.append_nil]
  · intro k e he
    rw [hexc k] at he
    exact load_repository_empty scopes k e he

/-- C6, counterexample: a job with no permissions block and no step.  The defaulted map
`{contents: read}` has the excessive entry `contents: read` against the empty derived
map, yet `onJob` reports nothing. -/
theorem onJob_default_excessive_counterexample :
    exJobBare.Permissions.isNone = true ∧
    ((newJobPermissions.setDefault).excessivePermissions
        ((newChecker exConfigEmpty).deriveJobPermissions
          ((newChecker exConfigEmpty).collectUsedActions exJobBare))).entries
      = [⟨"contents", ⟨JobPermissionScopeRead, "", none⟩⟩] ∧
    ((newChecker exConfigEmpty).onJob "ci.yml" exJobBare).errs = [] := by
  refine ⟨rfl, by decide, by decide⟩

/-- C6, instance of the amended statement: the job without a block that runs
`actions/checkout`, configured to need `contents: write`. -/
theorem onJob_no_permissions_block_witness :
    exJobNoBlock.Permissions = none ∧
    ((newChecker exConfigWrite).onJob "ci.yml" exJobNoBlock).errs
      = (newChecker exConfigWrite).errs ++
        ((newJobPermissions.setDefault).insufficientPermissions
            ((newChecker exConfigWrite).deriveJobPermissions
              ((newChecker exConfigWrite).collectUsedActions exJobNoBlock))).entries.map
          (fun kv =>
            newLintErr (insufficientMessage exJobNoBlock.ID.Value kv.1 kv.2) "ci.yml" kv.2.pos) :=
  ⟨rfl, onJob_no_permissions_block (newChecker exConfigWrite) "ci.yml" exJobNoBlock rfl⟩

/-- C7, counterexample: `permissions: {}` with a step needing `contents: read`.  The
derived map holds `contents: read`, yet `onJob` reports nothing, the default having been
set for the empty block. -/
theorem onJob_empty_block_counterexample :
    exJobEmptyBlock.Permissions.isSome = true ∧
    AList.lookup "contents"
        ((newChecker exConfigRead).deriveJobPermissions
          ((newChecker exConfigRead).collectUsedActions exJobEmptyBlock))
      = some ⟨JobPermissionScopeRead, "actions/checkout", some ⟨7, 15⟩⟩ ∧
    ((newChecker exConfigRead).onJob "ci.yml" exJobEmptyBlock).errs = [] := by
  refine ⟨rfl, by decide, by decide⟩

/-- C7, instance of the amended statement at `permissions: {}`. -/
theorem onJob_empty_permissions_block_witness :
    exJobEmptyBlock.Permissions = some ⟨some ∅⟩ ∧
    (∅ : GoMap PermissionScope).entries = [] ∧
    ((newChecker exConfigRead).onJob "ci.yml" exJobEmptyBlock).errs
      = (newChecker exConfigRead).errs ++
        ((newJobPermissions.setDefault).insufficientPermissions
            ((newChecker exConfigRead).deriveJobPermissions
              ((newChecker exConfigRead).collectUsedActions exJobEmptyBlock))).entries.map
          (fun kv =>
            newLintErr (insufficientMessage exJobEmptyBlock.ID.Value kv.1 kv.2) "ci.yml"
              kv.2.pos) :=
  ⟨rfl, rfl,
    onJob_empty_permissions_block (newChecker exConfigRead) "ci.yml" exJobEmptyBlock
      ⟨some ∅⟩ ∅ rfl rfl rfl⟩

/-- C8, instance: the job without a block that runs a shell step and `actions/checkout`,
configured to need `contents: write`. -/
theorem onJob_default_insufficient_write_witness :
    exJobNoBlock.Permissions = none ∧
    (newChecker exConfigWrite).collectUsedActions exJobNoBlock
      = [] ++ (⟨"actions/checkout@v3", some ⟨7, 15⟩⟩ : stepAction) :: [] ∧
    exConfigWrite.getPermissionConfig "actions/checkout"
      = some (AList.insert "contents" "write" ∅) ∧
    ((newChecker exConfigWrite).onJob "ci.yml" exJobNoBlock).errs
      = [⟨"job build has insufficient permission: contents:write (required by actions/checkout)",
          "ci.yml", 7, 15⟩] :=
  ⟨rfl, rfl, rfl,
    onJob_default_insufficient_write (newChecker exConfigWrite) "ci.yml" exJobNoBlock
      [] [] ⟨"actions/checkout@v3", some ⟨7, 15⟩⟩ (AList.insert "contents" "write" ∅)
      rfl rfl (by simp) rfl rfl (by simp) (by decide)⟩

/-- C9, counterexample: the job declaring `contents: write` that runs `actions/checkout`,
configured to need `contents: read`.  The excessive entry has empty provenance and is
reported as `contents:write`, not as `write (required by actions/checkout)`. -/
theorem excessive_provenance_counterexample :
    AList.lookup "contents"
        ((loadJobPermissions exScopesContentsWrite).excessivePermissions
          ((newChecker exConfigRead).deriveJobPermissions
            ((newChecker exConfigRead).collectUsedActions exJobContentsWrite)))
      = some ⟨JobPermissionScopeWrite, "", some ⟨4, 17⟩⟩ ∧
    jobPermission.String ⟨JobPermissionScopeWrite, "", some ⟨4, 17⟩⟩
      ≠ "write (required by actions/checkout)" ∧
    ((newChecker exConfigRead).onJob "ci.yml" exJobContentsWrite).errs
      = [⟨"job build has excessive permission: contents:write", "ci.yml", 4, 17⟩] := by
  refine ⟨by decide, by decide, by decide⟩

/-- C9, instance of the amended statement at the same job. -/
theorem onJob_declared_write_needs_read_witness :
    exJobContentsWrite.Permissions = some ⟨some exScopesContentsWrite⟩ ∧
    exScopesContentsWrite.entries
      = [⟨"contents", ⟨⟨"contents", some ⟨4, 7⟩⟩, ⟨"write", some ⟨4, 17⟩⟩⟩⟩] ∧
    exConfigRead.getPermissionConfig "actions/checkout"
      = some (AList.insert "contents" "read" ∅) ∧
    (((loadJobPermissions exScopesContentsWrite).excessivePermissions
        ((newChecker exConfigRead).deriveJobPermissions
          ((newChecker exConfigRead).collectUsedActions exJobContentsWrite))).entries
      = [⟨"contents", ⟨JobPermissionScopeWrite, "", some ⟨4, 17⟩⟩⟩] ∧
    jobPermission.String ⟨JobPermissionScopeWrite, "", some ⟨4, 17⟩⟩ = "write" ∧
    ((loadJobPermissions exScopesContentsWrite).insufficientPermissions
        ((newChecker exConfigRead).deriveJobPermissions
          ((newChecker exConfigRead).collectUsedActions exJobContentsWrite))).entries = [] ∧
    ((newChecker exConfigRead).onJob "ci.yml" exJobContentsWrite).errs
      = (newChecker exConfigRead).errs ++
        [newLintErr
          ("job " ++ exJobContentsWrite.ID.Value ++ " has excessive permission: contents:write")
          "ci.yml" (some ⟨4, 17⟩)]) :=
  ⟨rfl, rfl, rfl,
    onJob_declared_write_needs_read (newChecker exConfigRead) "ci.yml" exJobContentsWrite
      ⟨some exScopesContentsWrite⟩ exScopesContentsWrite "contents" (some ⟨4, 7⟩)
      (some ⟨4, 17⟩) [] [] ⟨"actions/checkout@v3", some ⟨7, 15⟩⟩
      (AList.insert "contents" "read" ∅) rfl rfl rfl rfl (by simp) rfl rfl (by simp)⟩

/-- C10, instance: the job declaring `issues: write` whose only action, `foo/bar`, is
absent from the configuration. -/
theorem onJob_unconfigured_actions_witness :
    exJobIssuesWrite.Permissions = some ⟨some exScopesIssuesWrite⟩ ∧
    (loadJobPermissions exScopesIssuesWrite).isEmpty = false ∧
    (∀ a ∈ (newChecker exConfigRead).collectUsedActions exJobIssuesWrite,
      AList.lookup a.actionName (newChecker exConfigRead).config.Repositories = none) ∧
    (newChecker exConfigRead).deriveJobPermissions
        ((newChecker exConfigRead).collectUsedActions exJobIssuesWrite) = newJobPermissions ∧
    ((newChecker exConfigRead).onJob "ci.yml" exJobIssuesWrite).errs
      = [⟨"job triage has excessive permission: issues:write", "ci.yml", 4, 15⟩] := by
  have hu : ∀ a ∈ (newChecker exConfigRead).collectUsedActions exJobIssuesWrite,
      AList.lookup a.actionName (newChecker exConfigRead).config.Repositories = none := by
    intro a ha
    have hcol : (newChecker exConfigRead).collectUsedActions exJobIssuesWrite
        = [⟨"foo/bar@v1", some ⟨9, 15⟩⟩] := rfl
    rw [hcol, List.mem_singleton] at ha
    subst ha
    rfl
  have hthm := onJob_unconfigured_actions (newChecker exConfigRead) "ci.yml" exJobIssuesWrite
    ⟨some exScopesIssuesWrite⟩ exScopesIssuesWrite rfl rfl rfl hu
  exact ⟨rfl, rfl, hu, hthm.1, by decide⟩

theorem splitChars_ne_nil (sep : Char) (l : List Char) : splitChars sep l ≠ [] := by
  induction l with
  | nil => simp [splitChars]
  | cons c cs ih =>
    unfold splitChars
    by_cases h : c = sep
    · simp [h]
    · simp only [h, if_false]
      cases hs : splitChars sep cs with
      | nil => simp
      | cons p ps => simp

theorem splitChars_head (sep : Char) (l : List Char) :
    (splitChars sep l).headD [] = l.takeWhile (fun ch => ch != sep) := by
  induction l with
  | nil => simp [splitChars]
  | cons c cs ih =>
    unfold splitChars
    by_cases h : c = sep
    · simp [h, List.takeWhile]
    · simp only [h, if_false]
      have hc : (c != sep) = true := by simp [h]
      rw [List.takeWhile_cons, hc]
      cases hs : splitChars sep cs with
      | nil => exact absurd hs (splitChars_ne_nil sep cs)
      | cons p ps =>
        rw [hs] at ih
        simp only [List.headD_cons] at ih
        simp [ih]

theorem splitChars_length (sep : Char) (l : List Char) :
    (splitChars sep l).length = l.count sep + 1 := by
  induction l with
  | nil => simp [splitChars]
  | cons c cs ih =>
    unfold splitChars
    by_cases h : c = sep
    · subst h
      simp [ih]
    · simp only [h, if_false]
      have hne : (c == sep) = false := by simp [h]
      rw [List.count_cons, hne]
      cases hs : splitChars sep cs with
      | nil => exact absurd hs (splitChars_ne_nil sep cs)
      | cons p ps =>
        rw [hs] at ih
        simpa using ih

theorem dropWhile_head_false {α : Type} (p : α → Bool) (l : List α) (c : α) (cs : List α)
    (h : l.dropWhile p = c :: cs) : p c = false := by
  induction l with
  | nil => simp at h
  | cons x xs ih =>
    rw [List.dropWhile_cons] at h
    by_cases hx : p x = true
    · rw [if_pos hx] at h
      exact ih h
    · rw [if_neg hx] at h
      cases h
      simpa using hx

theorem actionName_toList (a : stepAction) :
    a.actionName.toList = a.value.toList.takeWhile (fun ch => ch != '@') := by
  unfold stepAction.actionName stringsSplit
  rw [← splitChars_head]
  cases hs : splitChars '@' a.value.toList with
  | nil => exact absurd hs (splitChars_ne_nil _ _)
  | cons p ps => simp

/-- C15: `actionName` is the part of the `uses` string before its first `@`: the string is
the name followed by a rest that is empty or starts with `@`, the name contains no `@`,
and the name is the whole string when that contains no `@`. -/
theorem actionName_spec (a : stepAction) :
    (∃ rest : String, a.value = a.actionName ++ rest ∧
        (rest = "" ∨ ∃ r : String, rest = "@" ++ r)) ∧
    '@' ∉ a.actionName.toList ∧
    ('@' ∉ a.value.toList → a.actionName = a.value) := by
  have hn := actionName_toList a
  refine ⟨?_, ?_, ?_⟩
  · refine ⟨String.mk (a.value.toList.dropWhile (fun ch => ch != '@')), ?_, ?_⟩
    · apply String.ext
      rw [String.data_append]
      show a.value.toList = a.actionName.toList ++ _
      rw [hn]
      exact (List.takeWhile_append_dropWhile _ _).symm
    · cases hd : a.value.toList.dropWhile (fun ch => ch != '@') with
      | nil => left; rfl
      | cons c cs =>
        right
        have hc := dropWhile_head_false _ _ _ _ hd
        have hc' : c = '@' := by simpa using hc
        subst hc'
        exact ⟨String.mk cs, rfl⟩
  · rw [hn]
    intro hmem
    have := List.mem_takeWhile_imp hmem
    simp at this
  · intro hno
    apply String.ext
    show a.actionName.toList = a.value.toList
    rw [hn, List.takeWhile_eq_self_iff]
    intro c hc
    have : c ≠ '@' := fun h => hno (h ▸ hc)
    simp [this]

/-- C16: for each of the tokens `none`, `read`, `write`, converting to a scope and back
to a string gives the token again. -/
theorem scope_string_roundtrip (s : String)
    (h : s = "none" ∨ s = "read" ∨ s = "write") :
    jobPermissionScope.String (newJobPermissionsFromString s) = s := by
  rcases h with h | h | h <;> subst h <;> decide

/-- C16, instance at the token `read`. -/
theorem scope_string_roundtrip_witness :
    ("read" = "none" ∨ "read" = "read" ∨ "read" = "write") ∧
    jobPermissionScope.String (newJobPermissionsFromString "read") = "read" :=
  ⟨Or.inr (Or.inl rfl), scope_string_roundtrip "read" (Or.inr (Or.inl rfl))⟩

theorem add_of_not_lower (m : jobPermissions) (k r : String) (s : jobPermissionScope)
    (pos : Option Pos) (e : jobPermission) (he : AList.lookup k m = some e)
    (hs : ¬ e.scope < s) : jobPermissions.add m k r s pos = m := by
  unfold jobPermissions.add jobPermissionScope.lowerThan
  simp [he, hs]

/-- C17: a second `add` with the same arguments leaves the map as the first call left
it. -/
theorem add_idempotent (m : jobPermissions) (k r : String) (s : jobPermissionScope)
    (pos : Option Pos) :
    jobPermissions.add (jobPermissions.add m k r s pos) k r s pos
      = jobPermissions.add m k r s pos := by
  have hl := add_lookup_self m k r s pos
  apply add_of_not_lower _ k r s pos _ hl
  unfold addResult
  cases h : AList.lookup k m with
  | none => simp
  | some c =>
    by_cases hs : c.scope < s
    · simp [hs]
    · simp [hs]

theorem jobPermission_String_eq (e : jobPermission) :
    e.String
      = jobPermissionScope.String e.scope
        ++ (if e.repository = "" then "" else " (required by " ++ e.repository ++ ")") := by
  unfold jobPermission.String
  by_cases h : e.repository = ""
  · simp [h]
  · simp [h, String.append_assoc]

theorem newLintErr_fields (msg path : String) (pos : Option Pos) :
    (newLintErr msg path pos).Message = msg ∧ (newLintErr msg path pos).Filepath = path ∧
    ((newLintErr msg path pos).Line, (newLintErr msg path pos).Column)
      = (match pos with
        | some p => (p.Line, p.Col)
        | none => (0, 0)) := by
  cases pos <;> simp [newLintErr]

/-- C18: every finding `onJob` appends comes from an entry `(k, e)` of the excessive or of
the insufficient diff; its message is `job <id> has excessive permission: <k>:<scope>`, or
the same with `insufficient`, followed by ` (required by <provenance>)` exactly when the
provenance of `e` is not empty; its file is the path, and its line and column are those of
the position of `e`, or 0 and 0 when `e` has none. -/
theorem onJob_finding_format (c : checker) (path : String) (job : Job) :
    ∃ fs : List LintErr, (c.onJob path job).errs = c.errs ++ fs ∧
      ∀ f ∈ fs, ∃ (k : String) (e : jobPermission),
        ((⟨k, e⟩ ∈ ((declaredPermissions job).excessivePermissions
              (c.deriveJobPermissions (c.collectUsedActions job))).entries ∧
            f.Message
              = "job " ++ job.ID.Value ++ " has excessive permission: " ++ k ++ ":"
                ++ jobPermissionScope.String e.scope
                ++ (if e.repository = "" then "" else " (required by " ++ e.repository ++ ")"))
          ∨
          (⟨k, e⟩ ∈ ((if (declaredPermissions job).isEmpty
                then (declaredPermissions job).setDefault
                else declaredPermissions job).insufficientPermissions
              (c.deriveJobPermissions (c.collectUsedActions job))).entries ∧
            f.Message
              = "job " ++ job.ID.Value ++ " has insufficient permission: " ++ k ++ ":"
                ++ jobPermissionScope.String e.scope
                ++ (if e.repository = "" then "" else " (required by " ++ e.repository ++ ")")))
        ∧ f.Filepath = path
        ∧ (f.Line, f.Column)
            = (match e.pos with
              | some p => (p.Line, p.Col)
              | none => (0, 0)) := by
  refine ⟨_, by rw [onJob_errs, List.append_assoc], ?_⟩
  intro f hf
  rcases List.mem_append.mp hf with hf | hf
  · unfold findingsOf at hf
    obtain ⟨kv, hkv, rfl⟩ := List.mem_map.mp hf
    obtain ⟨k, e⟩ := kv
    obtain ⟨hm, hp, hl⟩ := newLintErr_fields (excessiveMessage job.ID.Value k e) path e.pos
    refine ⟨k, e, Or.inl ⟨hkv, ?_⟩, hp, hl⟩
    rw [hm]
    unfold excessiveMessage
    rw [jobPermission_String_eq, ← String.append_assoc]
  · unfold findingsOf at hf
    obtain ⟨kv, hkv, rfl⟩ := List.mem_map.mp hf
    obtain ⟨k, e⟩ := kv
    obtain ⟨hm, hp, hl⟩ := newLintErr_fields (insufficientMessage job.ID.Value k e) path e.pos
    refine ⟨k, e, Or.inr ⟨hkv, ?_⟩, hp, hl⟩
    rw [hm]
    unfold insufficientMessage
    rw [jobPermission_String_eq, ← String.append_assoc]

/-- C19, evaluation: with one collected finding the `text` format ends the process with
status 1, while the `json` format encodes the findings, returns nil and the process ends
with status 0. -/
theorem runAction_json_exit_status :
    mainExitCode (runAction "text" [exFinding] none) = 1 ∧
    runAction "json" [exFinding] none = RunEnd.returned none ∧
    mainExitCode (runAction "json" [exFinding] none) = 0 := by
  refine ⟨by decide, by decide, by decide⟩

theorem stringsSplit_length_lt_two (r : String) (sep : Char) :
    (stringsSplit r sep).length < 2 ↔ sep ∉ r.toList := by
  unfold stringsSplit
  rw [List.length_map, splitChars_length]
  constructor
  · intro h
    have : r.toList.count sep = 0 := by omega
    exact List.count_eq_zero.mp this
  · intro h
    have : r.toList.count sep = 0 := List.count_eq_zero.mpr h
    omega

theorem permission_validateEntries_none (l : List (Sigma (fun _ : String => String))) :
    PermissionConfig.validateEntries l = none ↔
      ∀ x ∈ l, x.1 ∈ allPermissionScopes ∧ (x.2 = "none" ∨ x.2 = "read" ∨ x.2 = "write") := by
  induction l with
  | nil => simp [PermissionConfig.validateEntries]
  | cons hd tl ih =>
    obtain ⟨k, v⟩ := hd
    unfold PermissionConfig.validateEntries
    by_cases hk : k ∈ allPermissionScopes
    · have hs : (AList.lookup k allPermissionScopes).isNone = false := by
        have := AList.lookup_isSome.mpr hk
        cases h : AList.lookup k allPermissionScopes <;> simp [h] at this ⊢
      simp only [hs, Bool.false_eq_true, if_false, noneScope, readScope, writeScope]
      by_cases h1 : v = "none"
      · simp [h1, ih, hk]
      · by_cases h2 : v = "read"
        · simp [h2, ih, hk]
        · by_cases h3 : v = "write"
          · simp [h3, ih, hk]
          · simp [h1, h2, h3]
    · have hs : (AList.lookup k allPermissionScopes).isNone = true := by
        rw [AList.lookup_eq_none.mpr hk]; rfl
      simp [hs, hk]

/-- The statement of C20 on the configurations in which no repository has a nil
permission set: `validate` returns, and it returns an error exactly when some repository
name has no `/`, some category is not recognized, or some scope is not one of the three
tokens. -/
theorem config_validateEntries_of_no_nil
    (l : List (Sigma (fun _ : String => Option PermissionConfig)))
    (hl : ∀ x ∈ l, x.2 ≠ none) :
    (∃ res, Config.validateEntries l = GoResult.ret res ∧
      (res = none ↔
        ∀ x ∈ l, '/' ∈ x.1.toList ∧
          ∀ pc, x.2 = some pc →
            ∀ y ∈ pc.entries, y.1 ∈ allPermissionScopes ∧
              (y.2 = "none" ∨ y.2 = "read" ∨ y.2 = "write"))) := by
  induction l with
  | nil => exact ⟨none, rfl, by simp⟩
  | cons hd tl ih =>
    obtain ⟨r, pc⟩ := hd
    obtain ⟨res, hres, hiff⟩ := ih (fun x hx => hl x (by simp [hx]))
    unfold Config.validateEntries
    by_cases hr : (stringsSplit r '/').length < 2
    · have hno := (stringsSplit_length_lt_two r '/').mp hr
      refine ⟨_, by rw [if_pos hr], ?_⟩
      constructor
      · intro h; cases h
      · intro h
        exact absurd (h ⟨r, pc⟩ (by simp)).1 hno
    · have hyes : '/' ∈ r.toList := by
        by_contra hc
        exact hr ((stringsSplit_length_lt_two r '/').mpr hc)
      rw [if_neg hr]
      cases pc with
      | none => exact absurd rfl (hl ⟨r, none⟩ (by simp))
      | some pc =>
        cases hv : PermissionConfig.validate pc with
        | some err =>
          refine ⟨some err, by simp [hv], ?_⟩
          have hnot : ¬ ∀ y ∈ pc.entries, y.1 ∈ allPermissionScopes ∧
              (y.2 = "none" ∨ y.2 = "read" ∨ y.2 = "write") := by
            intro hall
            have := (permission_validateEntries_none pc.entries).mpr hall
            unfold PermissionConfig.validate at hv
            rw [this] at hv
            cases hv
          constructor
          · intro h; cases h
          · intro h
            exact absurd (h ⟨r, some pc⟩ (by simp)).2 (fun h2 => hnot (h2 pc rfl))
        | none =>
          have hall := (permission_validateEntries_none pc.entries).mp hv
          refine ⟨res, by simp [hv, hres], ?_⟩
          rw [hiff]
          constructor
          · intro h x hx
            rcases List.mem_cons.mp hx with hx | hx
            · subst hx
              refine ⟨hyes, ?_⟩
              intro pc' hpc'
              cases hpc'
              exact hall
            · exact h x hx
          · intro h x hx
            exact h x (by simp [hx])

/-- C20, evaluation: on a configuration that lists a repository with a nil permission set
`validate` neither returns an error nor returns nil, it panics; it also panics when such a
repository is visited before one whose name has no `/`. -/
theorem validate_nil_permission_config :
    Config.validate exConfigNilRepo = GoResult.panic ∧
    Config.validate exConfigNilThenBadName = GoResult.panic ∧
    '/' ∉ "checkout".toList := by
  refine ⟨by decide, by decide, by decide⟩

theorem walk_self_call {σ : Type} (fs : FileSystem) (p : workflowProcessor σ) (A k : String)
    (j : Job) (rest : List (Sigma (fun _ : String => Job))) (w : Workflow) (jobs : GoMap Job)
    (u : AString)
    (hopen : fs.openParse A = Except.ok (Except.ok (some w))) (hjobs : w.Jobs = some jobs)
    (hent : jobs.entries = ⟨k, j⟩ :: rest)
    (hcall : j.WorkflowCall = some ⟨some u⟩) (hu : u.Value = A) (hstat : fs.stat A = true)
    (hp : ∀ st, (p.onJob st A j).2 = none) :
    ∀ (depth : Nat) (s : WalkState σ), A ∉ s.workflowCallRecords →
      (walk fs p depth A s).1 = none ∧
      (walk fs p depth A s).2.invoked.length = s.invoked.length + depth ∧
      (walk fs p depth A s).2.workflowCallRecords = s.workflowCallRecords := by
  intro depth
  induction depth with
  | zero => intro s _; simp [walk]
  | succ n ih =>
    intro s hs
    have hnone : AList.lookup A s.workflowCallRecords = none := AList.lookup_eq_none.mpr hs
    have hsw : shouldWalkPath s.workflowCallRecords A = true := by
      unfold shouldWalkPath; rw [hnone]; rfl
    have hswc : shouldWalkWorkflowCall s.workflowCallRecords ⟨some u⟩ = true := by
      show (AList.lookup u.Value s.workflowCallRecords).isNone = true
      rw [hu, hnone]
      rfl
    obtain ⟨h1, h2, h3⟩ := ih
      { s with parsed := s.parsed ++ [A], proc := (p.onJob s.proc A j).1,
               invoked := s.invoked ++ [(A, j)] } hs
    unfold walk
    simp only [hsw, if_true, hopen, hjobs, hent]
    unfold walkJobs
    simp only [hp, hcall, hswc, if_true, hu, hstat]
    generalize hres : walk fs p n A _ = res at h1 h2 h3
    obtain ⟨r, s2⟩ := res
    simp only at h1 h2 h3
    subst h1
    simp only
    refine ⟨trivial, ?_, h3⟩
    rw [h2]
    simp
    omega

/-- C11, evaluation: on the workflow `loop.yml` whose job calls `loop.yml`, `walk` from a
fresh walker has not returned at any recursion depth: every level calls `onJob` on the job
again and recurses, and nothing is ever recorded as visited. -/
theorem walk_self_call_never_returns (depth : Nat) :
    (walk exFsSelfCall checkerProcessor depth "loop.yml"
        (newWorkflowWalker (newChecker exConfigEmpty))).1 = none ∧
    (walk exFsSelfCall checkerProcessor depth "loop.yml"
        (newWorkflowWalker (newChecker exConfigEmpty))).2.invoked.length = depth := by
  have h := walk_self_call exFsSelfCall checkerProcessor "loop.yml" "again" exJobCallsLoop []
    ⟨some (AList.insert "again" exJobCallsLoop ∅)⟩ (AList.insert "again" exJobCallsLoop ∅)
    ⟨"loop.yml", some ⟨3, 11⟩⟩ rfl rfl rfl rfl rfl rfl (fun _ => rfl) depth
    (newWorkflowWalker (newChecker exConfigEmpty)) (by simp [newWorkflowWalker])
  refine ⟨h.1, ?_⟩
  rw [h.2.1]
  simp [newWorkflowWalker]

/-- C12, evaluation: `ci.yml` has the job `call`, whose target `./missing.yml` does not
exist, and then the job `build`.  `walk` returns nil right after `call`: `onJob` is never
invoked on `build`, whose insufficient `contents:write` goes unreported. -/
theorem walk_missing_target_skips_rest (depth : Nat) :
    (walk exFsMissingCall checkerProcessor (depth + 1) "ci.yml"
        (newWorkflowWalker (newChecker exConfigWrite))).1 = some none ∧
    (walk exFsMissingCall checkerProcessor (depth + 1) "ci.yml"
        (newWorkflowWalker (newChecker exConfigWrite))).2.invoked.map
      (fun i => i.2.ID.Value) = ["call"] ∧
    (walk exFsMissingCall checkerProcessor (depth + 1) "ci.yml"
        (newWorkflowWalker (newChecker exConfigWrite))).2.proc.errs = [] ∧
    ((newChecker exConfigWrite).onJob "ci.yml" exJobNoBlock).errs = [exFinding] := by
  refine ⟨rfl, rfl, ?_, by decide⟩
  rfl

theorem parseInv_same {σ : Type} (fs : FileSystem) (res : WalkResult) (s s' : WalkState σ)
    (hp : s'.parsed = s.parsed) (hi : s'.invoked = s.invoked) : parseInv fs res s s' :=
  ⟨[], [], by simp [hp], by simp [hi], by simp, by simp⟩

theorem parseInv_of_nil {σ : Type} (fs : FileSystem) (res : WalkResult)
    (s s' : WalkState σ) (h : parseInv fs (some none) s s') : parseInv fs res s s' := by
  obtain ⟨nP, nI, hp, hi, hf, hw⟩ := h
  refine ⟨nP, nI, hp, hi, ?_, hw⟩
  intro f e hfm hfe
  have := hf f e hfm hfe
  cases this

theorem parseInv_trans {σ : Type} (fs : FileSystem) (res : WalkResult)
    (s s1 s1' s2 : WalkState σ) (h1 : parseInv fs (some none) s s1)
    (hp : s1'.parsed = s1.parsed) (hi : s1'.invoked = s1.invoked)
    (h2 : parseInv fs res s1' s2) : parseInv fs res s s2 := by
  obtain ⟨nP1, nI1, hp1, hi1, hf1, hw1⟩ := h1
  obtain ⟨nP2, nI2, hp2, hi2, hf2, hw2⟩ := h2
  refine ⟨nP1 ++ nP2, nI1 ++ nI2, ?_, ?_, ?_, ?_⟩
  · rw [hp2, hp, hp1, List.append_assoc]
  · rw [hi2, hi, hi1, List.append_assoc]
  · intro f e hfm hfe
    rcases List.mem_append.mp hfm with h | h
    · have := hf1 f e h hfe
      cases this
    · exact hf2 f e h hfe
  · intro i him
    rcases List.mem_append.mp him with h | h
    · exact hw1 i h
    · exact hw2 i h

theorem parseInv_invoke {σ : Type} (fs : FileSystem) (s s1 : WalkState σ) (path : String)
    (job : Job) (w : Option Workflow)
    (hpath : fs.openParse path = Except.ok (Except.ok w))
    (hp : s1.parsed = s.parsed) (hi : s1.invoked = s.invoked ++ [(path, job)]) :
    parseInv fs (some none) s s1 := by
  refine ⟨[], [(path, job)], by simp [hp], hi, by simp, ?_⟩
  intro i him
  rw [List.mem_singleton] at him
  subst him
  exact ⟨w, hpath⟩

theorem walkJobs_parseInv {σ : Type} (fs : FileSystem) (p : workflowProcessor σ)
    (self : String → WalkState σ → WalkResult × WalkState σ) (path : String)
    (w : Option Workflow) (hpath : fs.openParse path = Except.ok (Except.ok w))
    (hself : ∀ t s, parseInv fs (self t s).1 s (self t s).2)
    (js : List (Sigma (fun _ : String => Job))) :
    ∀ s, parseInv fs (walkJobs fs p self path js s).1 s (walkJobs fs p self path js s).2 := by
  induction js with
  | nil => intro s; exact parseInv_same fs _ s _ rfl rfl
  | cons hd tl ih =>
    intro s
    obtain ⟨k, job⟩ := hd
    have h1 : parseInv fs (some none) s
        { s with proc := (p.onJob s.proc path job).1,
                 invoked := s.invoked ++ [(path, job)] } :=
      parseInv_invoke fs s _ path job w hpath rfl rfl
    unfold walkJobs
    cases hon : (p.onJob s.proc path job).2 with
    | some err =>
      simp only
      exact parseInv_of_nil fs _ s _ h1
    | none =>
      simp only
      cases hc : job.WorkflowCall with
      | none =>
        simp only
        exact parseInv_trans fs _ s _ _ _ h1 rfl rfl (ih _)
      | some wfc =>
        simp only
        by_cases hsw : shouldWalkWorkflowCall s.workflowCallRecords wfc = true
        · rw [if_pos hsw]
          cases hu : wfc.Uses with
          | none =>
            simp only
            exact h1
          | some u =>
            simp only
            by_cases hst : fs.stat u.Value = true
            · rw [if_pos hst]
              have hs := hself u.Value
                { s with proc := (p.onJob s.proc path job).1,
                         invoked := s.invoked ++ [(path, job)] }
              generalize hres : self u.Value _ = res at hs
              obtain ⟨r, s2⟩ := res
              simp only at hs
              cases r with
              | none =>
                simp only
                exact parseInv_trans fs _ s _ _ _ h1 rfl rfl hs
              | some r' =>
                cases r' with
                | some err =>
                  simp only
                  exact parseInv_trans fs _ s _ _ _ h1 rfl rfl hs
                | none =>
                  simp only
                  have hs' := parseInv_trans fs _ s _ _ _ h1 rfl rfl hs
                  cases hrec : recordWorkflowCall s2.workflowCallRecords wfc with
                  | error err =>
                    simp only
                    exact parseInv_of_nil fs _ s _ hs'
                  | ok records =>
                    simp only
                    exact parseInv_trans fs _ s s2 _ _ hs' rfl rfl (ih _)
            · rw [if_neg hst]
              exact h1
        · rw [if_neg hsw]
          exact parseInv_trans fs _ s _ _ _ h1 rfl rfl (ih _)

theorem walk_parseInv {σ : Type} (fs : FileSystem) (p : workflowProcessor σ) (depth : Nat) :
    ∀ path s, parseInv fs (walk fs p depth path s).1 s (walk fs p depth path s).2 := by
  induction depth with
  | zero => intro path s; exact parseInv_same fs _ s _ rfl rfl
  | succ n ih =>
    intro path s
    unfold walk
    by_cases hsw : shouldWalkPath s.workflowCallRecords path = true
    · rw [if_pos hsw]
      cases ho : fs.openParse path with
      | error err => exact parseInv_same fs _ s _ rfl rfl
      | ok content =>
        have hopen : ∀ w, content = Except.ok w →
            parseInv fs (some none) s { s with parsed := s.parsed ++ [path] } := by
          intro w hw
          refine ⟨[path], [], rfl, by simp, ?_, by simp⟩
          intro f e hfm hfe
          rw [List.mem_singleton] at hfm
          subst hfm
          rw [ho, hw] at hfe
          cases hfe
        cases hc : content with
        | error err =>
          simp only
          refine ⟨[path], [], rfl, by simp, ?_, by simp⟩
          intro f e hfm hfe
          rw [List.mem_singleton] at hfm
          subst hfm
          rw [ho, hc] at hfe
          cases hfe
          rfl
        | ok w =>
          cases w with
          | none => exact hopen none hc
          | some w =>
            simp only
            cases hj : w.Jobs with
            | none => exact hopen _ hc
            | some jobs =>
              simp only
              exact parseInv_trans fs _ s _ _ _ (hopen _ hc) rfl rfl
                (walkJobs_parseInv fs p (walk fs p n) path (some w) (by rw [ho, hc]) ih
                  jobs.entries _)
    · rw [if_neg hsw]
      exact parseInv_same fs _ s _ rfl rfl

theorem walkJobs_cons_skip {σ : Type} (fs : FileSystem) (p : workflowProcessor σ)
    (self : String → WalkState σ → WalkResult × WalkState σ) (path k : String) (job : Job)
    (rest : List (Sigma (fun _ : String => Job))) (s : WalkState σ)
    (hp : (p.onJob s.proc path job).2 = none)
    (hskip : ∀ t, callTarget job = some t → t ∈ s.workflowCallRecords) :
    walkJobs fs p self path (⟨k, job⟩ :: rest) s
      = walkJobs fs p self path rest (afterOnJob p s path job) := by
  rw [walkJobs]
  simp only [hp]
  cases hc : job.WorkflowCall with
  | none => rfl
  | some wfc =>
    simp only
    cases hu : wfc.Uses with
    | none =>
      have : shouldWalkWorkflowCall s.workflowCallRecords wfc = false := by
        unfold shouldWalkWorkflowCall; rw [hu]
      rw [if_neg (by rw [this]; simp)]
      rfl
    | some u =>
      have hmem : u.Value ∈ s.workflowCallRecords := by
        apply hskip
        unfold callTarget
        rw [hc]
        simp only [hu]
      have : shouldWalkWorkflowCall s.workflowCallRecords wfc = false := by
        unfold shouldWalkWorkflowCall
        rw [hu]
        simp only
        have := AList.lookup_isSome.mpr hmem
        cases h : AList.lookup u.Value s.workflowCallRecords <;> simp [h] at this ⊢
      rw [if_neg (by rw [this]; simp)]
      rfl

theorem walkJobs_cons_walk {σ : Type} (fs : FileSystem) (p : workflowProcessor σ)
    (self : String → WalkState σ → WalkResult × WalkState σ) (path k : String) (job : Job)
    (rest : List (Sigma (fun _ : String => Job))) (s s2 : WalkState σ) (t : String)
    (hp : (p.onJob s.proc path job).2 = none)
    (ht : callTarget job = some t) (hnew : t ∉ s.workflowCallRecords)
    (hstat : fs.stat t = true)
    (hself : self t (afterOnJob p s path job) = (some none, s2)) :
    walkJobs fs p self path (⟨k, job⟩ :: rest) s
      = walkJobs fs p self path rest
          { s2 with workflowCallRecords := AList.insert t () s2.workflowCallRecords } := by
  rw [walkJobs]
  simp only [hp]
  unfold callTarget at ht
  cases hc : job.WorkflowCall with
  | none => rw [hc] at ht; cases ht
  | some wfc =>
    rw [hc] at ht
    simp only at ht ⊢
    cases hu : wfc.Uses with
    | none => rw [hu] at ht; cases ht
    | some u =>
      rw [hu] at ht
      simp only [Option.some.injEq] at ht
      have hsw : shouldWalkWorkflowCall s.workflowCallRecords wfc = true := by
        unfold shouldWalkWorkflowCall
        rw [hu]
        simp only
        rw [ht, AList.lookup_eq_none.mpr hnew]
        rfl
      rw [if_pos hsw]
      simp only [ht, hstat, if_true]
      unfold afterOnJob at hself
      rw [hself]
      simp only [recordWorkflowCall, hu, ht]

theorem stretch_nil {σ : Type} (fs : FileSystem) (p : workflowProcessor σ)
    (rank : String → Nat) (path : String) (s : WalkState σ) :
    stretch fs p rank path [] s s [] [] := by
  refine ⟨by simp, by simp, rfl, by simp, by simp, List.nodup_nil, by simp, by simp, by simp⟩

theorem stretch_skip {σ : Type} (fs : FileSystem) (p : workflowProcessor σ)
    (rank : String → Nat) (path : String) (job : Job) (own : List (String × Job))
    (s s' : WalkState σ) (nP : List String) (nI : List (String × Job))
    (hskip : ∀ t, callTarget job = some t → t ∈ s.workflowCallRecords)
    (h : stretch fs p rank path own (afterOnJob p s path job) s' nP nI) :
    stretch fs p rank path ((path, job) :: own) s s' nP ((path, job) :: nI) := by
  obtain ⟨h1, h2, h3, h4, h5, h6, h7, h8, h9⟩ := h
  refine ⟨h1, ?_, ?_, h4, h5, h6, ?_, ?_, h9⟩
  · rw [h2]; simp [afterOnJob]
  · rw [h3]; rfl
  · intro f
    rw [List.filter_cons, h7 f]
    by_cases hf : path = f
    · subst hf; simp
    · have hf' : ¬ f = path := fun h => hf h.symm
      simp [hf, hf']
  · intro i hi t ht
    rcases List.mem_cons.mp hi with hi | hi
    · subst hi
      exact (h4 t).mpr (Or.inl (hskip t ht))
    · exact h8 i hi t ht

theorem stretch_walk {σ : Type} (fs : FileSystem) (p : workflowProcessor σ)
    (rank : String → Nat) (path : String) (job : Job) (own : List (String × Job))
    (s s2 s' : WalkState σ) (t : String) (tail nP : List String)
    (nIt nI : List (String × Job))
    (ht : callTarget job = some t) (hnew : t ∉ s.workflowCallRecords)
    (hrank : rank t < rank path)
    (hw : walked fs p rank t (afterOnJob p s path job) s2 tail nIt)
    (h : stretch fs p rank path own
      { s2 with workflowCallRecords := AList.insert t () s2.workflowCallRecords } s' nP nI) :
    stretch fs p rank path ((path, job) :: own) s s' (t :: tail ++ nP)
      ((path, job) :: nIt ++ nI) := by
  obtain ⟨w1, w2, w3, w4, w5, w6, w7, w8⟩ := hw
  obtain ⟨h1, h2, h3, h4, h5, h6, h7, h8, h9⟩ := h
  have hrec3 : ∀ x, x ∈ AList.insert t () s2.workflowCallRecords ↔
      x = t ∨ x ∈ s.workflowCallRecords ∨ x ∈ tail := by
    intro x
    rw [AList.mem_insert, w4 x]
    rfl
  have hpath_notin : ∀ x ∈ t :: tail ++ nP, x ≠ path := by
    intro x hx hxp
    subst hxp
    rcases List.mem_append.mp hx with hx | hx
    · rcases List.mem_cons.mp hx with hx | hx
      · rw [hx] at hrank; exact lt_irrefl _ hrank
      · exact absurd (lt_trans (w5 _ hx).2 hrank) (lt_irrefl _)
    · exact absurd (h5 _ hx).2 (lt_irrefl _)
  refine ⟨?_, ?_, ?_, ?_, ?_, ?_, ?_, ?_, ?_⟩
  · rw [h1]
    show s2.parsed ++ nP = _
    rw [w1]
    simp [afterOnJob]
  · rw [h2]
    show s2.invoked ++ nI = _
    rw [w2]
    simp [afterOnJob]
  · rw [h3]
    show replayCalls p s2.proc nI = _
    rw [w3]
    simp [replayCalls, afterOnJob, List.foldl_append]
  · intro x
    rw [h4 x]
    show x ∈ AList.insert t () s2.workflowCallRecords ∨ x ∈ nP ↔ _
    rw [hrec3 x]
    simp only [List.mem_append, List.mem_cons]
    tauto
  · intro x hx
    rcases List.mem_append.mp hx with hx | hx
    · rcases List.mem_cons.mp hx with hx | hx
      · subst hx; exact ⟨hnew, hrank⟩
      · exact ⟨(w5 x hx).1, lt_trans (w5 x hx).2 hrank⟩
    · refine ⟨?_, (h5 x hx).2⟩
      intro hxs
      exact (h5 x hx).1 ((hrec3 x).mpr (Or.inr (Or.inl hxs)))
  · rw [List.nodup_append]
    refine ⟨?_, h6, ?_⟩
    · rw [List.nodup_cons]
      refine ⟨?_, w6⟩
      intro htt
      exact absurd (w5 t htt).2 (lt_irrefl _)
    · intro x hx1 hx2
      apply (h5 x hx2).1
      apply (hrec3 x).mpr
      rcases List.mem_cons.mp hx1 with hx1 | hx1
      · exact Or.inl hx1
      · exact Or.inr (Or.inr hx1)
  · intro f
    rw [List.cons_append, List.filter_cons, List.filter_append, w7 f, h7 f]
    by_cases hf : f = path
    · subst hf
      have hn1 : f ∉ t :: tail := fun hx =>
        hpath_notin f (List.mem_append.mpr (Or.inl hx)) rfl
      have hn2 : f ∉ nP := fun hx =>
        hpath_notin f (List.mem_append.mpr (Or.inr hx)) rfl
      have hn3 : f ∉ t :: tail ++ nP := fun hx => hpath_notin f hx rfl
      have hd : decide ((f, job).1 = f) = true := by simp
      simp only [hd, hn1, hn2, hn3, if_true, if_false]
      simp
    · have hd : ¬ decide ((path, job).1 = f) = true := by
        simp only [decide_eq_true_eq]
        exact fun h => hf h.symm
      by_cases hin : f ∈ t :: tail
      · have hn2 : f ∉ nP := by
          intro hx
          apply (h5 f hx).1
          apply (hrec3 f).mpr
          rcases List.mem_cons.mp hin with hx1 | hx1
          · exact Or.inl hx1
          · exact Or.inr (Or.inr hx1)
        have hin3 : f ∈ t :: tail ++ nP := List.mem_append.mpr (Or.inl hin)
        simp only [hd, hf, hin, hn2, hin3, if_true, if_false]
        simp
      · by_cases hin2 : f ∈ nP
        · have hin3 : f ∈ t :: tail ++ nP := List.mem_append.mpr (Or.inr hin2)
          simp only [hd, hf, hin, hin2, hin3, if_true, if_false]
          simp
        · have hn3 : f ∉ t :: tail ++ nP := by
            intro hx
            rcases List.mem_append.mp hx with hx | hx
            · exact hin hx
            · exact hin2 hx
          simp only [hd, hf, hin, hin2, hn3, if_true, if_false]
          simp
  · intro i hi t' ht'
    rcases List.mem_cons.mp hi with hi | hi
    · subst hi
      rw [ht] at ht'
      cases ht'
      apply (h4 t).mpr
      left
      exact (hrec3 t).mpr (Or.inl rfl)
    · exact h8 i hi t' ht'
  · intro f hf j hj t' ht'
    rcases List.mem_append.mp hf with hf | hf
    · apply (h4 t').mpr
      left
      exact (AList.mem_insert _).mpr (Or.inr (w8 f hf j hj t' ht'))
    · exact h9 f hf j hj t' ht'

theorem walkJobs_stretch {σ : Type} (fs : FileSystem) (p : workflowProcessor σ)
    (rank : String → Nat) (hp : ∀ st path job, (p.onJob st path job).2 = none) (n : Nat)
    (hW : ∀ t (s : WalkState σ), rank t < n → t ∉ s.workflowCallRecords →
      (∃ w, fs.openParse t = Except.ok (Except.ok w)) →
      ∃ s' tail nI, walk fs p n t s = (some none, s') ∧ walked fs p rank t s s' tail nI)
    (path : String) (hle : rank path ≤ n) (js : List (Sigma (fun _ : String => Job)))
    (hjs : ∀ kv ∈ js, ∀ t, callTarget kv.2 = some t →
      rank t < rank path ∧ fs.stat t = true ∧
        ∃ w, fs.openParse t = Except.ok (Except.ok w)) :
    ∀ s : WalkState σ, ∃ s' nP nI,
      walkJobs fs p (walk fs p n) path js s = (some none, s') ∧
      stretch fs p rank path (js.map (fun kv => (path, kv.2))) s s' nP nI := by
  induction js with
  | nil =>
    intro s
    exact ⟨s, [], [], rfl, stretch_nil fs p rank path s⟩
  | cons hd tl ih =>
    intro s
    obtain ⟨k, job⟩ := hd
    have ih' := ih (fun kv hkv => hjs kv (List.mem_cons_of_mem _ hkv))
    by_cases hskip : ∀ t, callTarget job = some t → t ∈ s.workflowCallRecords
    · obtain ⟨s', nP, nI, hrun, hst⟩ := ih' (afterOnJob p s path job)
      refine ⟨s', nP, (path, job) :: nI, ?_, ?_⟩
      · rw [walkJobs_cons_skip fs p _ path k job tl s (hp _ _ _) hskip]
        exact hrun
      · exact stretch_skip fs p rank path job _ s s' nP nI hskip hst
    · push_neg at hskip
      obtain ⟨t, ht, hnew⟩ := hskip
      obtain ⟨hrank, hstat, hparse⟩ := hjs ⟨k, job⟩ (List.mem_cons_self _ _) t ht
      obtain ⟨s2, tail, nIt, hwalk, hwd⟩ :=
        hW t (afterOnJob p s path job) (lt_of_lt_of_le hrank hle) hnew hparse
      obtain ⟨s', nP, nI, hrun, hst⟩ :=
        ih' { s2 with workflowCallRecords := AList.insert t () s2.workflowCallRecords }
      refine ⟨s', t :: tail ++ nP, (path, job) :: nIt ++ nI, ?_, ?_⟩
      · rw [walkJobs_cons_walk fs p _ path k job tl s s2 t (hp _ _ _) ht hnew hstat hwalk]
        exact hrun
      · exact stretch_walk fs p rank path job _ s s2 s' t tail nP nIt nI ht hnew hrank hwd hst

theorem jobsOf_eq_nil_of_nil_workflow (fs : FileSystem) (path : String)
    (h : fs.openParse path = Except.ok (Except.ok none)) : jobsOf fs path = [] := by
  unfold jobsOf
  rw [h]

theorem jobsOf_eq_nil_of_nil_jobs (fs : FileSystem) (path : String) (w : Workflow)
    (h : fs.openParse path = Except.ok (Except.ok (some w))) (hj : w.Jobs = none) :
    jobsOf fs path = [] := by
  unfold jobsOf
  rw [h]
  simp only [hj]

theorem jobsOf_eq_entries (fs : FileSystem) (path : String) (w : Workflow) (jobs : GoMap Job)
    (h : fs.openParse path = Except.ok (Except.ok (some w))) (hj : w.Jobs = some jobs) :
    jobsOf fs path = jobs.entries.map (fun kv => kv.2) := by
  unfold jobsOf
  rw [h]
  simp only [hj]

theorem walked_of_no_jobs {σ : Type} (fs : FileSystem) (p : workflowProcessor σ)
    (rank : String → Nat) (path : String) (s : WalkState σ) (h : jobsOf fs path = []) :
    walked fs p rank path s { s with parsed := s.parsed ++ [path] } [] [] := by
  refine ⟨rfl, by simp, rfl, by simp, by simp, List.nodup_nil, ?_, ?_⟩
  · intro f
    by_cases hf : f ∈ [path]
    · rw [if_pos hf]
      rw [List.mem_singleton] at hf
      subst hf
      simp [expectedCalls, h]
    · rw [if_neg hf]
      rfl
  · intro f hf j hj
    rw [List.mem_singleton] at hf
    subst hf
    rw [h] at hj
    cases hj

theorem walked_of_stretch {σ : Type} (fs : FileSystem) (p : workflowProcessor σ)
    (rank : String → Nat) (path : String) (s s' : WalkState σ) (nP : List String)
    (nI : List (String × Job))
    (h : stretch fs p rank path (expectedCalls fs path)
      { s with parsed := s.parsed ++ [path] } s' nP nI) :
    walked fs p rank path s s' nP nI := by
  obtain ⟨h1, h2, h3, h4, h5, h6, h7, h8, h9⟩ := h
  have hnot : path ∉ nP := fun hx => absurd (h5 path hx).2 (lt_irrefl _)
  refine ⟨?_, h2, h3, h4, h5, h6, ?_, ?_⟩
  · rw [h1]; simp
  · intro f
    rw [h7 f]
    by_cases hf : f = path
    · subst hf
      have hin : f ∈ f :: nP := List.mem_cons_self _ _
      simp only [hnot, hin, if_true, if_false, List.append_nil]
    · by_cases hin : f ∈ nP
      · have hin' : f ∈ path :: nP := List.mem_cons_of_mem _ hin
        simp only [hf, hin, hin', if_true, if_false, List.nil_append]
      · have hin' : f ∉ path :: nP := by
          intro hx
          rcases List.mem_cons.mp hx with hx | hx
          · exact hf hx
          · exact hin hx
        simp only [hf, hin, hin', if_false, List.append_nil]
  · intro f hf j hj t ht
    rcases List.mem_cons.mp hf with hf | hf
    · subst hf
      exact h8 (f, j) (List.mem_map.mpr ⟨j, hj, rfl⟩) t ht
    · exact h9 f hf j hj t ht

theorem walk_walked {σ : Type} (fs : FileSystem) (p : workflowProcessor σ)
    (rank : String → Nat) (hp : ∀ st path job, (p.onJob st path job).2 = none)
    (hfs : ∀ f, ∀ j ∈ jobsOf fs f, ∀ t, callTarget j = some t →
      rank t < rank f ∧ fs.stat t = true ∧ ∃ w, fs.openParse t = Except.ok (Except.ok w))
    (n : Nat) :
    ∀ path (s : WalkState σ), rank path < n → path ∉ s.workflowCallRecords →
      (∃ w, fs.openParse path = Except.ok (Except.ok w)) →
      ∃ s' tail nI, walk fs p n path s = (some none, s') ∧
        walked fs p rank path s s' tail nI := by
  induction n with
  | zero => intro path s h; exact absurd h (Nat.not_lt_zero _)
  | succ n ih =>
    intro path s hrank hnew hparse
    obtain ⟨w, hw⟩ := hparse
    have hsw : shouldWalkPath s.workflowCallRecords path = true := by
      unfold shouldWalkPath
      rw [AList.lookup_eq_none.mpr hnew]
      rfl
    unfold walk
    rw [if_pos hsw]
    simp only [hw]
    cases w with
    | none =>
      exact ⟨_, [], [], rfl,
        walked_of_no_jobs fs p rank path s (jobsOf_eq_nil_of_nil_workflow fs path hw)⟩
    | some w =>
      simp only
      cases hj : w.Jobs with
      | none =>
        exact ⟨_, [], [], rfl,
          walked_of_no_jobs fs p rank path s (jobsOf_eq_nil_of_nil_jobs fs path w hw hj)⟩
      | some jobs =>
        simp only
        have hjobs := jobsOf_eq_entries fs path w jobs hw hj
        have hjs : ∀ kv ∈ jobs.entries, ∀ t, callTarget kv.2 = some t →
            rank t < rank path ∧ fs.stat t = true ∧
              ∃ w, fs.openParse t = Except.ok (Except.ok w) := by
          intro kv hkv t ht
          apply hfs path kv.2 _ t ht
          rw [hjobs]
          exact List.mem_map.mpr ⟨kv, hkv, rfl⟩
        obtain ⟨s', nP, nI, hrun, hst⟩ :=
          walkJobs_stretch fs p rank hp n ih path (Nat.lt_succ_iff.mp hrank) jobs.entries hjs
            { s with parsed := s.parsed ++ [path] }
        refine ⟨s', nP, nI, hrun, ?_⟩
        apply walked_of_stretch
        have hown : expectedCalls fs path = jobs.entries.map (fun kv => (path, kv.2)) := by
          unfold expectedCalls
          rw [hjobs, List.map_map]
          rfl
        rw [hown]
        exact hst

/-- C13: take files whose workflow calls are acyclic (`rank` falls along every call) and
whose call targets all exist and parse, and a processor that reports no error.  A walk of
`A` from a fresh walker, given recursion depth above the rank of `A`, returns nil; no file
is parsed twice; the `onJob` calls made for a file are one per job of the file, in order,
when the file was parsed and none otherwise; every call target of a parsed file was parsed;
the processor state is the result of exactly these calls; and a job whose call target is
already recorded is passed without any parse. -/
theorem walk_acyclic_once {σ : Type} (fs : FileSystem) (p : workflowProcessor σ)
    (rank : String → Nat) (A : String) (p0 : σ) (depth : Nat)
    (hp : ∀ st path job, (p.onJob st path job).2 = none)
    (hfs : ∀ f, ∀ j ∈ jobsOf fs f, ∀ t, callTarget j = some t →
      rank t < rank f ∧ fs.stat t = true ∧ ∃ w, fs.openParse t = Except.ok (Except.ok w))
    (hA : ∃ w, fs.openParse A = Except.ok (Except.ok w))
    (hdepth : rank A < depth) :
    ∃ s', walk fs p depth A (newWorkflowWalker p0) = (some none, s') ∧
      s'.parsed.Nodup ∧
      s'.parsed.head? = some A ∧
      (∀ f, s'.invoked.filter (fun i => decide (i.1 = f))
          = if f ∈ s'.parsed then (jobsOf fs f).map (fun j => (f, j)) else []) ∧
      (∀ f ∈ s'.parsed, ∀ j ∈ jobsOf fs f, ∀ t, callTarget j = some t → t ∈ s'.parsed) ∧
      s'.proc = s'.invoked.foldl (fun acc i => (p.onJob acc i.1 i.2).1) p0 ∧
      (∀ (self : String → WalkState σ → WalkResult × WalkState σ) (path k : String)
          (job : Job) (rest : List (Sigma (fun _ : String => Job))) (s : WalkState σ)
          (t : String), callTarget job = some t → t ∈ s.workflowCallRecords →
        walkJobs fs p self path (⟨k, job⟩ :: rest) s
          = walkJobs fs p self path rest
              { s with proc := (p.onJob s.proc path job).1,
                       invoked := s.invoked ++ [(path, job)] }) := by
  obtain ⟨s', tail, nI, hrun, h1, h2, h3, h4, h5, h6, h7, h8⟩ :=
    walk_walked fs p rank hp hfs depth A (newWorkflowWalker p0) hdepth
      (by simp [newWorkflowWalker]) hA
  have hparsed : s'.parsed = A :: tail := by
    rw [h1]; simp [newWorkflowWalker]
  have hinv : s'.invoked = nI := by
    rw [h2]; simp [newWorkflowWalker]
  have hrec : ∀ x, x ∈ s'.workflowCallRecords → x ∈ tail := by
    intro x hx
    rcases (h4 x).mp hx with h | h
    · simp [newWorkflowWalker] at h
    · exact h
  refine ⟨s', hrun, ?_, ?_, ?_, ?_, ?_, ?_⟩
  · rw [hparsed, List.nodup_cons]
    exact ⟨fun hx => absurd (h5 A hx).2 (lt_irrefl _), h6⟩
  · rw [hparsed]; rfl
  · intro f
    rw [hinv, hparsed]
    exact h7 f
  · intro f hf j hj t ht
    rw [hparsed] at hf ⊢
    exact List.mem_cons_of_mem _ (hrec t (h8 f hf j hj t ht))
  · rw [h3, hinv]
    rfl
  · intro self path k job rest s t ht hmem
    have hskip : ∀ t', callTarget job = some t' → t' ∈ s.workflowCallRecords := by
      intro t' ht'
      rw [ht] at ht'
      cases ht'
      exact hmem
    exact walkJobs_cons_skip fs p self path k job rest s (hp _ _ _) hskip

theorem exFsDiamond_calls (f : String) (j : Job) (hj : j ∈ jobsOf exFsDiamond f) (t : String)
    (ht : callTarget j = some t) :
    exRankDiamond t < exRankDiamond f ∧ exFsDiamond.stat t = true ∧
      ∃ w, exFsDiamond.openParse t = Except.ok (Except.ok w) := by
  unfold jobsOf at hj
  by_cases ha : f = "a.yml"
  · subst ha
    have : j = exJobCallsB ∨ j = exJobCallsC := by
      simpa [exFsDiamond] using hj
    rcases this with h | h
    · subst h
      cases ht
      exact ⟨by decide, by decide, _, rfl⟩
    · subst h
      cases ht
      exact ⟨by decide, by decide, _, rfl⟩
  · by_cases hb : f = "b.yml"
    · subst hb
      have : j = exJobNoBlock := by
        simpa [exFsDiamond] using hj
      subst this
      cases ht
    · by_cases hc : f = "c.yml"
      · subst hc
        have : j = exJobViaB := by
          simpa [exFsDiamond] using hj
        subst this
        cases ht
        exact ⟨by decide, by decide, _, rfl⟩
      · simp [exFsDiamond, ha, hb, hc] at hj

/-- C13, instance: the diamond walked by the checker.  `b.yml` is parsed once, and its one
finding appears once. -/
theorem walk_acyclic_once_witness :
    (∃ w, exFsDiamond.openParse "a.yml" = Except.ok (Except.ok w)) ∧
    exRankDiamond "a.yml" < 3 ∧
    (∃ s', walk exFsDiamond checkerProcessor 3 "a.yml"
          (newWorkflowWalker (newChecker exConfigWrite)) = (some none, s') ∧
        s'.parsed.Nodup ∧
        s'.parsed = ["a.yml", "b.yml", "c.yml"] ∧
        s'.invoked.map (fun i => (i.1, i.2.ID.Value))
          = [("a.yml", "first"), ("b.yml", "build"), ("a.yml", "second"), ("c.yml", "via")] ∧
        s'.proc.errs
          = [⟨"job build has insufficient permission: contents:write (required by actions/checkout)",
              "b.yml", 7, 15⟩]) := by
  obtain ⟨s', hrun, hnd, -⟩ :=
    walk_acyclic_once exFsDiamond checkerProcessor exRankDiamond "a.yml"
      (newChecker exConfigWrite) 3 (fun _ _ _ => rfl) exFsDiamond_calls ⟨_, rfl⟩ (by decide)
  refine ⟨⟨_, rfl⟩, by decide, s', hrun, hnd, ?_, ?_, ?_⟩
  · have : s' = (walk exFsDiamond checkerProcessor 3 "a.yml"
        (newWorkflowWalker (newChecker exConfigWrite))).2 := by rw [hrun]
    rw [this]
    rfl
  · have : s' = (walk exFsDiamond checkerProcessor 3 "a.yml"
        (newWorkflowWalker (newChecker exConfigWrite))).2 := by rw [hrun]
    rw [this]
    rfl
  · have : s' = (walk exFsDiamond checkerProcessor 3 "a.yml"
        (newWorkflowWalker (newChecker exConfigWrite))).2 := by rw [hrun]
    rw [this]
    decide

theorem stepReq_congr (c1 c2 : checker)
    (h : ∀ r, (c1.config.getPermissionConfig r = none ∧
          c2.config.getPermissionConfig r = none) ∨
        ∃ pc1 pc2, c1.config.getPermissionConfig r = some pc1 ∧
          c2.config.getPermissionConfig r = some pc2 ∧ pc1.entries.Perm pc2.entries)
    (k : String) (a : stepAction) : stepReq c1 k a = stepReq c2 k a := by
  unfold stepReq
  rcases h a.actionName with ⟨h1, h2⟩ | ⟨pc1, pc2, h1, h2, hp⟩
  · rw [h1, h2]
  · rw [h1, h2]
    simp only [AList.perm_lookup hp]

theorem derive_lookup_congr (c1 c2 : checker)
    (h : ∀ a k, stepReq c1 k a = stepReq c2 k a) (steps : List stepAction) (k : String) :
    AList.lookup k (c1.deriveJobPermissions steps)
      = AList.lookup k (c2.deriveJobPermissions steps) := by
  induction steps using List.reverseRecOn with
  | nil => rfl
  | append_singleton l a ih =>
    rw [derive_snoc_lookup, derive_snoc_lookup, h a k, ih]

/-- C21: for a fixed list of steps, two configurations that give every action the same
permission pairs, enumerated in any two orders, yield the same derived map: the same entry
under every key, hence the same entries up to order. -/
theorem deriveJobPermissions_order_independent (c1 c2 : checker)
    (steps : List stepAction)
    (h : ∀ r, (c1.config.getPermissionConfig r = none ∧
          c2.config.getPermissionConfig r = none) ∨
        ∃ pc1 pc2, c1.config.getPermissionConfig r = some pc1 ∧
          c2.config.getPermissionConfig r = some pc2 ∧ pc1.entries.Perm pc2.entries) :
    (∀ k, AList.lookup k (c1.deriveJobPermissions steps)
        = AList.lookup k (c2.deriveJobPermissions steps)) ∧
    (c1.deriveJobPermissions steps).entries.Perm (c2.deriveJobPermissions steps).entries := by
  have hl := derive_lookup_congr c1 c2 (fun a k => stepReq_congr c1 c2 h k a) steps
  exact ⟨hl, entries_perm_of_lookup _ _ hl⟩

theorem exConfigTwoPairs_rel (r : String) :
    ((newChecker exConfigTwoPairs).config.getPermissionConfig r = none ∧
        (newChecker exConfigTwoPairsSwapped).config.getPermissionConfig r = none) ∨
      ∃ pc1 pc2, (newChecker exConfigTwoPairs).config.getPermissionConfig r = some pc1 ∧
        (newChecker exConfigTwoPairsSwapped).config.getPermissionConfig r = some pc2 ∧
        pc1.entries.Perm pc2.entries := by
  by_cases hr : r = "actions/checkout"
  · subst hr
    right
    refine ⟨_, _, rfl, rfl, ?_⟩
    exact List.Perm.swap _ _ _
  · left
    constructor
    · unfold Config.getPermissionConfig newChecker exConfigTwoPairs
      simp only
      rw [AList.lookup_insert_ne hr]
      rfl
    · unfold Config.getPermissionConfig newChecker exConfigTwoPairsSwapped
      simp only
      rw [AList.lookup_insert_ne hr]
      rfl

/-- C21, instance: `actions/checkout` with the pairs `contents: write` and `issues: read`
enumerated in the two possible orders, for a job with one checkout step; the two derived
maps hold the same entries, stored in different orders. -/
theorem deriveJobPermissions_order_independent_witness :
    (∀ k, AList.lookup k
          ((newChecker exConfigTwoPairs).deriveJobPermissions
            [⟨"actions/checkout@v3", some ⟨7, 15⟩⟩])
        = AList.lookup k
          ((newChecker exConfigTwoPairsSwapped).deriveJobPermissions
            [⟨"actions/checkout@v3", some ⟨7, 15⟩⟩])) ∧
    ((newChecker exConfigTwoPairs).deriveJobPermissions
        [⟨"actions/checkout@v3", some ⟨7, 15⟩⟩]).entries.Perm
      ((newChecker exConfigTwoPairsSwapped).deriveJobPermissions
        [⟨"actions/checkout@v3", some ⟨7, 15⟩⟩]).entries ∧
    ((newChecker exConfigTwoPairs).deriveJobPermissions
        [⟨"actions/checkout@v3", some ⟨7, 15⟩⟩]).entries
      ≠ ((newChecker exConfigTwoPairsSwapped).deriveJobPermissions
        [⟨"actions/checkout@v3", some ⟨7, 15⟩⟩]).entries :=
  ⟨(deriveJobPermissions_order_independent (newChecker exConfigTwoPairs)
      (newChecker exConfigTwoPairsSwapped) [⟨"actions/checkout@v3", some ⟨7, 15⟩⟩]
      exConfigTwoPairs_rel).1,
    (deriveJobPermissions_order_independent (newChecker exConfigTwoPairs)
      (newChecker exConfigTwoPairsSwapped) [⟨"actions/checkout@v3", some ⟨7, 15⟩⟩]
      exConfigTwoPairs_rel).2,
    by decide⟩

theorem entries_eq_nil_iff_lookup {V : Type} (m : GoMap V) :
    m.entries = [] ↔ ∀ k, AList.lookup k m = none := by
  constructor
  · intro h k
    unfold AList.lookup
    rw [h]
    rfl
  · exact eq_empty_of_lookup m

/-- C22: the excessive and the insufficient diff of `p` and `q` are both empty exactly
when `p` and `q` have the same keys and the same scope under each key.  A declared entry
whose key is absent from `q` is in the excessive diff whatever its scope, the scope none
included. -/
theorem diffs_empty_iff (p q : jobPermissions) :
    (((jobPermissions.excessivePermissions p q).entries = [] ∧
        (jobPermissions.insufficientPermissions p q).entries = []) ↔
      ∀ k, (k ∈ p ↔ k ∈ q) ∧
        ∀ pv qv, AList.lookup k p = some pv → AList.lookup k q = some qv →
          pv.scope = qv.scope) ∧
    (∀ k pv, AList.lookup k p = some pv → AList.lookup k q = none →
      AList.lookup k (jobPermissions.excessivePermissions p q) = some pv) := by
  refine ⟨?_, ?_⟩
  · rw [entries_eq_nil_iff_lookup, entries_eq_nil_iff_lookup]
    constructor
    · rintro ⟨he, hi⟩ k
      have he' := he k
      have hi' := hi k
      rw [excessive_lookup] at he'
      rw [insufficient_lookup] at hi'
      rw [mem_iff_lookup_some, mem_iff_lookup_some]
      cases hp : AList.lookup k p with
      | none =>
        cases hq : AList.lookup k q with
        | none => simp
        | some qv => simp [hp, hq] at hi'
      | some pv =>
        cases hq : AList.lookup k q with
        | none => simp [hp, hq] at he'
        | some qv =>
          simp only [hp, hq] at he' hi'
          refine ⟨by simp, ?_⟩
          intro pv' qv' h1 h2
          cases h1
          cases h2
          have h1 : ¬ qv.scope < pv.scope := by
            intro hlt
            simp [hlt] at he'
          have h2 : ¬ pv.scope < qv.scope := by
            intro hlt
            simp [hlt] at hi'
          exact le_antisymm (not_lt.mp h1) (not_lt.mp h2)
    · intro h
      constructor
      · intro k
        obtain ⟨hk, hs⟩ := h k
        rw [mem_iff_lookup_some, mem_iff_lookup_some] at hk
        rw [excessive_lookup]
        cases hp : AList.lookup k p with
        | none => rfl
        | some pv =>
          obtain ⟨qv, hq⟩ := hk.mp ⟨pv, hp⟩
          have := hs pv qv hp hq
          simp [hq, this]
      · intro k
        obtain ⟨hk, hs⟩ := h k
        rw [mem_iff_lookup_some, mem_iff_lookup_some] at hk
        rw [insufficient_lookup]
        cases hq : AList.lookup k q with
        | none => rfl
        | some qv =>
          obtain ⟨pv, hp⟩ := hk.mpr ⟨qv, hq⟩
          have := hs pv qv hp hq
          simp [hp, this]
  · intro k pv hp hq
    rw [excessive_lookup, hp, hq]

/-- C23: `newJobPermissionsFromString` gives the scope none for every string other than
`read` and `write`, so a declared permission whose scope token is such a string is loaded
as an entry of scope none, not rejected. -/
theorem fromString_unrecognized (s : String) (hr : s ≠ "read") (hw : s ≠ "write") :
    newJobPermissionsFromString s = JobPermissionScopeNone ∧
    ∀ (scopes : GoMap PermissionScope) (key : String) (name : AString) (pos : Option Pos),
      scopes.entries = [⟨key, ⟨name, ⟨s, pos⟩⟩⟩] →
      (loadJobPermissions scopes).entries
        = [⟨name.Value, ⟨JobPermissionScopeNone, "", pos⟩⟩] := by
  have h : newJobPermissionsFromString s = JobPermissionScopeNone := by
    unfold newJobPermissionsFromString noneScope readScope writeScope
    simp [hr, hw]
  refine ⟨h, ?_⟩
  intro scopes key name pos hs
  rw [load_single scopes key _ hs]
  simp only [h]

/-- C23, instance at the token `Write`: the block `contents: Write` is loaded as
`contents` with scope none. -/
theorem fromString_unrecognized_witness :
    "Write" ≠ "read" ∧ "Write" ≠ "write" ∧
    newJobPermissionsFromString "Write" = JobPermissionScopeNone ∧
    (loadJobPermissions exScopesCapitalWrite).entries
      = [⟨"contents", ⟨JobPermissionScopeNone, "", some ⟨4, 17⟩⟩⟩] :=
  ⟨by decide, by decide,
    (fromString_unrecognized "Write" (by decide) (by decide)).1,
    (fromString_unrecognized "Write" (by decide) (by decide)).2 exScopesCapitalWrite
      "contents" ⟨"contents", some ⟨4, 7⟩⟩ (some ⟨4, 17⟩) rfl⟩

theorem config_validateEntries_nil (r : String)
    (pre rest : List (Sigma (fun _ : String => Option PermissionConfig)))
    (hpre : ∀ x ∈ pre, '/' ∈ x.1.toList ∧
      ∃ pc, x.2 = some pc ∧ PermissionConfig.validate pc = none)
    (hr : '/' ∈ r.toList) :
    Config.validateEntries (pre ++ ⟨r, none⟩ :: rest) = GoResult.panic := by
  induction pre with
  | nil =>
    have hlen : ¬ (stringsSplit r '/').length < 2 := fun h =>
      (stringsSplit_length_lt_two r '/').mp h hr
    simp [Config.validateEntries, hlen]
  | cons hd tl ih =>
    obtain ⟨x, pcx⟩ := hd
    obtain ⟨hx, pc, hpc, hv⟩ := hpre ⟨x, pcx⟩ (by simp)
    have hlen : ¬ (stringsSplit x '/').length < 2 := fun h =>
      (stringsSplit_length_lt_two x '/').mp h hx
    simp only at hpc
    subst hpc
    rw [List.cons_append, Config.validateEntries]
    simp only [hlen, if_false, hv]
    exact ih (fun y hy => hpre y (by simp [hy]))

/-- C24, evaluation: on a configuration in which `actions/checkout` is listed with a nil
permission set after a valid repository, `Config.validate` does not return: the call
`pc.validate()` dereferences the nil pointer and panics. -/
theorem validate_dereferences_nil :
    Config.validate exConfigValidThenNil = GoResult.panic ∧
    ∀ res, Config.validate exConfigValidThenNil ≠ GoResult.ret res := by
  have h : Config.validate exConfigValidThenNil = GoResult.panic := by decide
  refine ⟨h, ?_⟩
  intro res hres
  rw [h] at hres
  cases hres

theorem walkJobs_cons_error {σ : Type} (fs : FileSystem) (p : workflowProcessor σ)
    (self : String → WalkState σ → WalkResult × WalkState σ) (path k : String) (job : Job)
    (rest : List (Sigma (fun _ : String => Job))) (s s2 : WalkState σ) (t e : String)
    (hp : (p.onJob s.proc path job).2 = none)
    (ht : callTarget job = some t) (hnew : t ∉ s.workflowCallRecords)
    (hstat : fs.stat t = true)
    (hself : self t (afterOnJob p s path job) = (some (some e), s2)) :
    walkJobs fs p self path (⟨k, job⟩ :: rest) s = (some (some e), s2) := by
  rw [walkJobs]
  simp only [hp]
  unfold callTarget at ht
  cases hc : job.WorkflowCall with
  | none => rw [hc] at ht; cases ht
  | some wfc =>
    rw [hc] at ht
    simp only at ht ⊢
    cases hu : wfc.Uses with
    | none => rw [hu] at ht; cases ht
    | some u =>
      rw [hu] at ht
      simp only [Option.some.injEq] at ht
      have hsw : shouldWalkWorkflowCall s.workflowCallRecords wfc = true := by
        unfold shouldWalkWorkflowCall
        rw [hu]
        simp only
        rw [ht, AList.lookup_eq_none.mpr hnew]
        rfl
      rw [if_pos hsw]
      simp only [ht, hstat, if_true]
      unfold afterOnJob at hself
      rw [hself]

theorem walkJobs_append_of_completed {σ : Type} (fs : FileSystem) (p : workflowProcessor σ)
    (self : String → WalkState σ → WalkResult × WalkState σ) (path : String)
    (pre l : List (Sigma (fun _ : String => Job)))
    (hstat : ∀ kv ∈ pre, ∀ t, callTarget kv.2 = some t → fs.stat t = true) :
    ∀ (s sPre : WalkState σ), walkJobs fs p self path pre s = (some none, sPre) →
      walkJobs fs p self path (pre ++ l) s = walkJobs fs p self path l sPre := by
  induction pre with
  | nil =>
    intro s sPre h
    simp only [walkJobs, Prod.mk.injEq, true_and] at h
    subst h
    rfl
  | cons hd tl ih =>
    intro s sPre h
    obtain ⟨k, job⟩ := hd
    have ih' := ih (fun kv hkv => hstat kv (List.mem_cons_of_mem _ hkv))
    have hst := hstat ⟨k, job⟩ (List.mem_cons_self _ _)
    rw [List.cons_append, walkJobs]
    rw [walkJobs] at h
    cases hon : (p.onJob s.proc path job).2 with
    | some err =>
      simp only [hon] at h
      cases h
    | none =>
      simp only [hon] at h ⊢
      cases hc : job.WorkflowCall with
      | none =>
        simp only [hc] at h ⊢
        exact ih' _ _ h
      | some wfc =>
        simp only [hc] at h ⊢
        by_cases hsw : shouldWalkWorkflowCall s.workflowCallRecords wfc = true
        · rw [if_pos hsw] at h ⊢
          cases hu : wfc.Uses with
          | none =>
            unfold shouldWalkWorkflowCall at hsw
            rw [hu] at hsw
            cases hsw
          | some u =>
            simp only [hu] at h ⊢
            have hs : fs.stat u.Value = true := by
              apply hst
              unfold callTarget
              rw [hc]
              simp only [hu]
            rw [if_pos hs] at h ⊢
            generalize hres : self u.Value _ = res at h ⊢
            obtain ⟨r, s2⟩ := res
            cases r with
            | none => simp only at h; cases h
            | some r' =>
              cases r' with
              | some err => simp only at h; cases h
              | none =>
                simp only at h ⊢
                cases hrec : recordWorkflowCall s2.workflowCallRecords wfc with
                | error err =>
                  simp only [hrec] at h
                  cases h
                | ok records =>
                  simp only [hrec] at h ⊢
                  exact ih' _ _ h
        · rw [if_neg hsw] at h ⊢
          exact ih' _ _ h

/-- C14: a parse failure is returned by `walk` and by every enclosing call of `walk`.
(1) Called on an unrecorded path whose parse fails with `e`, `walk` returns `e` having only
added the path to the parsed files: `onJob` is not invoked.  (2) When the loop over the
jobs of `path` has passed the jobs `pre`, whose call targets exist, and the recursive
`walk` of the target of the next job returns an error `e`, the call of `walk` on `path`
returns `e` with the state of the recursive call.  (3) In every call of `walk`, a file
handed to `parse` in the course of the call whose parse fails with `e` makes the call
return `e`, and `onJob` is invoked on no job of that file. -/
theorem walk_parse_error_returned {σ : Type} (fs : FileSystem) (p : workflowProcessor σ) :
    (∀ (depth : Nat) (path : String) (s : WalkState σ) (e : String),
      path ∉ s.workflowCallRecords →
      fs.openParse path = Except.ok (Except.error e) →
      walk fs p (depth + 1) path s
        = (some (some e), { s with parsed := s.parsed ++ [path] })) ∧
    (∀ (depth : Nat) (path : String) (s sPre s2 : WalkState σ) (w : Workflow)
        (jobs : GoMap Job) (pre rest : List (Sigma (fun _ : String => Job))) (k : String)
        (job : Job) (t e : String),
      path ∉ s.workflowCallRecords →
      fs.openParse path = Except.ok (Except.ok (some w)) →
      w.Jobs = some jobs →
      jobs.entries = pre ++ ⟨k, job⟩ :: rest →
      (∀ kv ∈ pre, ∀ t', callTarget kv.2 = some t' → fs.stat t' = true) →
      walkJobs fs p (walk fs p depth) path pre { s with parsed := s.parsed ++ [path] }
        = (some none, sPre) →
      (p.onJob sPre.proc path job).2 = none →
      callTarget job = some t →
      t ∉ sPre.workflowCallRecords →
      fs.stat t = true →
      walk fs p depth t
          { sPre with proc := (p.onJob sPre.proc path job).1,
                      invoked := sPre.invoked ++ [(path, job)] }
        = (some (some e), s2) →
      walk fs p (depth + 1) path s = (some (some e), s2)) ∧
    (∀ (depth : Nat) (path : String) (s : WalkState σ),
      ∃ newParsed newInvoked,
        (walk fs p depth path s).2.parsed = s.parsed ++ newParsed ∧
        (walk fs p depth path s).2.invoked = s.invoked ++ newInvoked ∧
        ∀ f e, f ∈ newParsed → fs.openParse f = Except.ok (Except.error e) →
          (walk fs p depth path s).1 = some (some e) ∧ ∀ i ∈ newInvoked, i.1 ≠ f) := by
  refine ⟨?_, ?_, ?_⟩
  · intro depth path s e hnew hopen
    have hsw : shouldWalkPath s.workflowCallRecords path = true := by
      unfold shouldWalkPath
      rw [AList.lookup_eq_none.mpr hnew]
      rfl
    rw [walk, if_pos hsw]
    simp only [hopen]
  · intro depth path s sPre s2 w jobs pre rest k job t e hnew hopen hjobs hent hstat hpre
      hon ht htnew htstat hinner
    have hsw : shouldWalkPath s.workflowCallRecords path = true := by
      unfold shouldWalkPath
      rw [AList.lookup_eq_none.mpr hnew]
      rfl
    rw [walk, if_pos hsw]
    simp only [hopen, hjobs, hent]
    rw [walkJobs_append_of_completed fs p _ path pre _ hstat _ sPre hpre]
    exact walkJobs_cons_error fs p _ path k job rest sPre s2 t e hon ht htnew htstat hinner
  · intro depth path s
    obtain ⟨nP, nI, hp, hi, hf, hw⟩ := walk_parseInv fs p depth path s
    refine ⟨nP, nI, hp, hi, ?_⟩
    intro f e hfm hfe
    refine ⟨hf f e hfm hfe, ?_⟩
    intro i him hif
    obtain ⟨w, hw'⟩ := hw i him
    rw [hif, hfe] at hw'
    cases hw'

/-- C14, instance: `bad.yml`, two calls below `top.yml`, does not parse.  Part (1) gives
the error for the call on `bad.yml`, part (2) carries it through the calls on `mid.yml`
and on `top.yml`, past the job of `top.yml` whose call of `ok.yml` succeeded; `onJob` is
invoked on no job of `bad.yml`. -/
theorem walk_parse_error_returned_witness :
    exFsParseError.openParse "bad.yml"
      = Except.ok (Except.error "bad.yml:1:1: could not parse as YAML") ∧
    (walk exFsParseError checkerProcessor 3 "top.yml"
        (newWorkflowWalker (newChecker exConfigEmpty))).1
      = some (some "bad.yml:1:1: could not parse as YAML") ∧
    (walk exFsParseError checkerProcessor 3 "top.yml"
        (newWorkflowWalker (newChecker exConfigEmpty))).2.parsed
      = ["top.yml", "ok.yml", "mid.yml", "bad.yml"] ∧
    (walk exFsParseError checkerProcessor 3 "top.yml"
        (newWorkflowWalker (newChecker exConfigEmpty))).2.invoked.map
        (fun i => (i.1, i.2.ID.Value))
      = [("top.yml", "first"), ("ok.yml", "build"), ("top.yml", "second"),
          ("mid.yml", "via")] := by
  obtain ⟨hA, hB, -⟩ := walk_parse_error_returned exFsParseError checkerProcessor
  let s0 : WalkState checker := newWorkflowWalker (newChecker exConfigEmpty)
  -- after the loop of `top.yml` has passed its first job, whose call of `ok.yml` succeeds
  let sPreTop : WalkState checker :=
    (walkJobs exFsParseError checkerProcessor (walk exFsParseError checkerProcessor 2)
      "top.yml" [⟨"first", exJobCallsOk⟩] { s0 with parsed := s0.parsed ++ ["top.yml"] }).2
  let sMid : WalkState checker :=
    { sPreTop with
      proc := (checkerProcessor.onJob sPreTop.proc "top.yml" exJobCallsMid).1,
      invoked := sPreTop.invoked ++ [("top.yml", exJobCallsMid)] }
  let sPreMid : WalkState checker := { sMid with parsed := sMid.parsed ++ ["mid.yml"] }
  let sBad : WalkState checker :=
    { sPreMid with
      proc := (checkerProcessor.onJob sPreMid.proc "mid.yml" exJobCallsBad).1,
      invoked := sPreMid.invoked ++ [("mid.yml", exJobCallsBad)] }
  let sEnd : WalkState checker := { sBad with parsed := sBad.parsed ++ ["bad.yml"] }
  have hbad : walk exFsParseError checkerProcessor 1 "bad.yml" sBad
      = (some (some "bad.yml:1:1: could not parse as YAML"), sEnd) :=
    hA 0 "bad.yml" sBad _ (AList.lookup_eq_none.mp rfl) rfl
  have hmid : walk exFsParseError checkerProcessor 2 "mid.yml" sMid
      = (some (some "bad.yml:1:1: could not parse as YAML"), sEnd) :=
    hB 1 "mid.yml" sMid sPreMid sEnd ⟨some (AList.insert "via" exJobCallsBad ∅)⟩
      (AList.insert "via" exJobCallsBad ∅) [] [] "via" exJobCallsBad "bad.yml" _
      (AList.lookup_eq_none.mp rfl) rfl rfl rfl (by simp) rfl rfl rfl
      (AList.lookup_eq_none.mp rfl) rfl hbad
  have htop : walk exFsParseError checkerProcessor 3 "top.yml" s0
      = (some (some "bad.yml:1:1: could not parse as YAML"), sEnd) :=
    hB 2 "top.yml" s0 sPreTop sEnd
      ⟨some (AList.insert "first" exJobCallsOk (AList.insert "second" exJobCallsMid ∅))⟩
      (AList.insert "first" exJobCallsOk (AList.insert "second" exJobCallsMid ∅))
      [⟨"first", exJobCallsOk⟩] [] "second" exJobCallsMid "mid.yml" _
      (AList.lookup_eq_none.mp rfl) rfl rfl rfl
      (by
        intro kv hkv t ht
        rw [List.mem_singleton] at hkv
        subst hkv
        cases ht
        rfl)
      rfl rfl rfl (AList.lookup_eq_none.mp rfl) rfl hmid
  refine ⟨rfl, ?_, ?_, ?_⟩
  · rw [htop]
  · rw [htop]
    rfl
  · rw [htop]
    rfl

end Linta
